import Mathlib

/-!
# Gauche signal queue and safe-point dispatch (src/signal.c)

A shallow embedding of `sig_handle` and `Scm_SigCheck` of `signal.c`, and the
properties of the signal queue and of the pending handler list proved about it.

Conventions of the embedding.

* `SCM_VM_SIGQ_SIZE` is defined in `gauche/vm.h`, which is not among the sources;
  it is the parameter `N` of every definition.
* C integers are `Int`.  Every increment in the two functions is applied to an
  index that has just been used to access the `N`-slot array, so it is below `N`
  and cannot wrap.
* An array access with an index outside `[0, N)` is undefined behaviour in C; it
  is the result `Fault.undefined`.
* Scheme objects are trees.  The only mutation in `signal.c` is `SCM_SET_CDR` on
  the C local `tail`, which always designates the last pair of a chain; `TailPtr`
  records which chain that is.
* The macros of `gauche.h` (`SCM_NULLP`, `SCM_PAIRP`, `SCM_CAR`, `SCM_CDR`,
  `SCM_FOR_EACH`, `SCM_SYS_SIGSET_P`) have their usual meaning on these trees;
  a tree has no sharing, so the pending list has no cell in common with the
  registry.
* The `while` loop of `Scm_SigCheck` does not terminate for every state (a tail
  index outside `[0, N)` is never reached by the head index), so the loop takes
  a bound on its number of iterations and returns `none` when the bound is hit.
* `Scm_Cons` succeeds in `Scm_SigCheck`.  `Scm_SigCheck_cells` is the same
  function with a bound on the number of cells that `Scm_Cons` can allocate, for
  the properties of a fault raised while a queued signal is processed; without
  a bound it is `Scm_SigCheck`.
-/

namespace Gauche

/-! ## Data model -/

/-- Signal set (`sigset_t`): the list of the signal numbers that are members. -/
structure sigset_t where
  members : List Int
deriving DecidableEq, Repr

/-- Membership test `sigismember(set, signum)` of the C library: 1 for a member,
0 otherwise.  The error return -1 for a number that is not a signal number is
not modelled: the queue holds numbers the operating system passed to the
signal handler. -/
def sigismember (set : sigset_t) (signum : Int) : Int :=
  if signum ∈ set.members then 1 else 0

/-- Scheme objects (`ScmObj`), as far as `signal.c` distinguishes them: the empty
list `SCM_NIL`, a boxed signal set (`SCM_SYS_SIGSET_P`), a pair (`SCM_PAIRP`), and
any other object, which `signal.c` never looks into. -/
inductive ScmObj where
  | nil : ScmObj
  | sigset (set : sigset_t) : ScmObj
  | other (id : Nat) : ScmObj
  | pair (car : ScmObj) (cdr : ScmObj) : ScmObj
deriving DecidableEq, Repr

/-- The fields of `ScmVM` that `signal.c` uses, and with them the set of signals
the calling thread has blocked (`blocked`), which is kept by the operating
system and changed by `sigprocmask`. -/
structure ScmVM where
  sigQueue : Int → Int
  sigQueueHead : Int
  sigQueueTail : Int
  sigOverflow : Int
  sigPending : ScmObj
  sigHandlers : ScmObj
  sigMask : sigset_t
  blocked : List Int

/-- Ways in which a call can end other than by returning. -/
inductive Fault where
  /-- A Scheme error was raised (`Scm_Error`); it unwinds through
  `SCM_WHEN_ERROR`. -/
  | error : Fault
  /-- `SCM_ASSERT` failed. -/
  | panic : Fault
  /-- An array was accessed outside its bounds. -/
  | undefined : Fault
deriving DecidableEq, Repr

/-- What the C local `tail` of `Scm_SigCheck` designates. -/
inductive TailPtr where
  /-- The local holds `SCM_NIL`. -/
  | null : TailPtr
  /-- The local points to the last pair of the list stored in `vm->sigPending`. -/
  | lastOfPending : TailPtr
  /-- The local points to the last pair of `chain`, a chain of cells whose first
  cell was made by `tail = Scm_Cons(..)` (line 94) and is stored nowhere else. -/
  | lastOfFresh (chain : ScmObj) : TailPtr
deriving DecidableEq, Repr

/-- How `Scm_SigCheck` ended: the state left behind, what the local `tail`
designated, the signal numbers the loop read from the queue (in the order read;
this list is not program state, it records the values `signum` took), and the
fault if the call did not return normally. -/
structure Exit where
  vm : ScmVM
  tail : TailPtr
  drained : List Int
  fault : Option Fault

/-! ## `sig_handle` (lines 50-66) -/

/-- Whether `i` is a valid index of `sigQueue`. -/
def inBounds (N : Int) (i : Int) : Prop := 0 ≤ i ∧ i < N

instance (N i : Int) : Decidable (inBounds N i) :=
  inferInstanceAs (Decidable (0 ≤ i ∧ i < N))

/-- The signal handler `sig_handle(signum)`, run on the state `vm` of the current
VM (`Scm_VM()`). -/
def sig_handle (N : Int) (signum : Int) (vm : ScmVM) : Except Fault ScmVM :=
  if vm.sigOverflow ≠ 0 then .ok vm
  else if vm.sigQueueHead ≤ vm.sigQueueTail then
    if ¬ inBounds N vm.sigQueueTail then .error Fault.undefined
    else
      let vm1 := { vm with
        sigQueue := Function.update vm.sigQueue vm.sigQueueTail signum,
        sigQueueTail := vm.sigQueueTail + 1 }
      if vm1.sigQueueTail ≥ N then .ok { vm1 with sigQueueTail := 0 }
      else .ok vm1
  else
    if ¬ inBounds N vm.sigQueueTail then .error Fault.undefined
    else
      let vm1 := { vm with
        sigQueue := Function.update vm.sigQueue vm.sigQueueTail signum,
        sigQueueTail := vm.sigQueueTail + 1 }
      if vm1.sigQueueTail ≥ vm1.sigQueueHead then
        .ok { vm1 with sigOverflow := vm1.sigOverflow + 1 }
      else .ok vm1

/-- Successive calls of `sig_handle`, one for each number of `sigs`, in order. -/
def sig_handle_all (N : Int) : List Int → ScmVM → Except Fault ScmVM
  | [], vm => .ok vm
  | s :: rest, vm =>
    match sig_handle N s vm with
    | .ok vm1 => sig_handle_all N rest vm1
    | .error f => .error f

/-! ## `Scm_SigCheck` (lines 72-112) -/

/-- The two operations of `sigprocmask` that `signal.c` uses. -/
inductive How where
  | SIG_BLOCK : How
  | SIG_UNBLOCK : How
deriving DecidableEq, Repr

/-- Effect of `sigprocmask(how, &set, NULL)` on the set of blocked signals. -/
def sigprocmask (how : How) (set : sigset_t) (blocked : List Int) : List Int :=
  match how with
  | How.SIG_BLOCK => blocked ++ set.members.filter (fun s => s ∉ blocked)
  | How.SIG_UNBLOCK => blocked.filter (fun s => s ∉ set.members)

/-- Modelled from the spec: `Scm_LastPair` and `SCM_SET_CDR` (list.c and gauche.h,
not among the sources), composed: the object `l` after the cdr of its last pair
("the current append position of PendingHandlerList (its logical tail)") has
been replaced by `x`.  An object that is not a pair has no last pair and is
returned as it is. -/
def setLastCdr (x : ScmObj) : ScmObj → ScmObj
  | ScmObj.pair a d =>
    match d with
    | ScmObj.pair _ _ => ScmObj.pair a (setLastCdr x d)
    | _ => ScmObj.pair a x
  | o => o

/-- Modelled from the spec: `Scm_LastPair` (list.c, not among the sources), called
on the object stored in `vm->sigPending`: for a pair it returns the last pair of
the list ("the current append position of PendingHandlerList (its logical
tail)"), which is `TailPtr.lastOfPending` here; called on an object that is not
a pair it raises an error. -/
def Scm_LastPair (l : ScmObj) : Except Fault TailPtr :=
  match l with
  | ScmObj.pair _ _ => .ok TailPtr.lastOfPending
  | _ => .error Fault.error

/-- Lines 81-82: `tail = vm->sigPending; if (!SCM_NULLP(tail)) tail =
Scm_LastPair(tail);`. -/
def initTail (sigPending : ScmObj) : Except Fault TailPtr :=
  if sigPending = ScmObj.nil then .ok TailPtr.null
  else Scm_LastPair sigPending

/-- Result of the scan of the handler registry for one signal number. -/
inductive Scan where
  /-- An entry matched; `handler` is its `SCM_CDR`. -/
  | matched (handler : ScmObj) : Scan
  /-- The end of the list was reached without a match. -/
  | unmatched : Scan
  /-- The assertion of line 90 failed. -/
  | assertFailed : Scan
deriving DecidableEq, Repr

/-- Lines 87-92 and 99: the `SCM_FOR_EACH` scan of `vm->sigHandlers` for `signum`,
up to the `break` at the first entry whose set has `signum` as a member.
`SCM_FOR_EACH(sp, l)` visits the pairs of `l` while `SCM_PAIRP(sp)` holds. -/
def scanHandlers (signum : Int) : ScmObj → Scan
  | ScmObj.pair (ScmObj.pair (ScmObj.sigset set) handler) rest =>
    if sigismember set signum ≠ 0 then Scan.matched handler
    else scanHandlers signum rest
  | ScmObj.pair _ _ => Scan.assertFailed
  | _ => Scan.unmatched

/-- Lines 93-98: what a match does with the handler value `h`: with `tail` null a
fresh cell is made and assigned to `tail` only; otherwise a fresh cell is stored
into the cdr of the pair `tail` points to, and `tail` moves to that cell. -/
def appendHandler (h : ScmObj) (vm : ScmVM) (tail : TailPtr) : ScmVM × TailPtr :=
  match tail with
  | TailPtr.null => (vm, TailPtr.lastOfFresh (ScmObj.pair h ScmObj.nil))
  | TailPtr.lastOfPending =>
    ({ vm with sigPending := setLastCdr (ScmObj.pair h ScmObj.nil) vm.sigPending },
     TailPtr.lastOfPending)
  | TailPtr.lastOfFresh chain =>
    (vm, TailPtr.lastOfFresh (setLastCdr (ScmObj.pair h ScmObj.nil) chain))

/-- Lines 84-85: `signum = vm->sigQueue[vm->sigQueueHead++]`, then the head index
goes back to 0 if it has reached `N`.  Returns `signum` and the new state. -/
def dequeue (N : Int) (vm : ScmVM) : Int × ScmVM :=
  let signum := vm.sigQueue vm.sigQueueHead
  let vm1 := { vm with sigQueueHead := vm.sigQueueHead + 1 }
  if vm1.sigQueueHead ≥ N then (signum, { vm1 with sigQueueHead := 0 }) else (signum, vm1)

/-- Lines 83-102: the `while` loop, run for at most `fuel` iterations.  `none`
means that the loop was still running when the bound was reached. -/
def sigCheckLoop (N : Int) : Nat → ScmVM → TailPtr → List Int → Option Exit
  | fuel, vm, tail, drained =>
    if vm.sigQueueHead = vm.sigQueueTail then
      some { vm := vm, tail := tail, drained := drained, fault := none }
    else
      match fuel with
      | 0 => none
      | fuel + 1 =>
        if ¬ inBounds N vm.sigQueueHead then
          some { vm := vm, tail := tail, drained := drained, fault := some Fault.undefined }
        else
          let signum := (dequeue N vm).1
          let vm2 := (dequeue N vm).2
          match scanHandlers signum vm2.sigHandlers with
          | Scan.assertFailed =>
            some { vm := vm2, tail := tail, drained := drained ++ [signum],
                   fault := some Fault.panic }
          | Scan.unmatched => sigCheckLoop N fuel vm2 tail (drained ++ [signum])
          | Scan.matched h =>
            let r := appendHandler h vm2 tail
            sigCheckLoop N fuel r.1 r.2 (drained ++ [signum])

/-- Lines 81-102: the section protected by `SCM_UNWIND_PROTECT`, its loop bounded
by `fuel` iterations.  `Scm_Cons` is taken to succeed. -/
def sigCheckBody (N : Int) (fuel : Nat) (vm : ScmVM) : Option Exit :=
  match initTail vm.sigPending with
  | .error f => some { vm := vm, tail := TailPtr.null, drained := [], fault := some f }
  | .ok tail => sigCheckLoop N fuel vm tail []

/-- Modelled from the spec: the macros `SCM_UNWIND_PROTECT`, `SCM_WHEN_ERROR` and
`SCM_ASSERT` (gauche.h, not among the sources): whether the fault `f`, raised in
the protected section, runs the `SCM_WHEN_ERROR` clause.  A Scheme error does
("the fault then continues to propagate to the section's caller after release");
a failed assertion does not, it is "reported as a fatal internal fault, not a
recoverable condition"; undefined behaviour does not either. -/
def unwinds (f : Fault) : Bool :=
  match f with
  | Fault.error => true
  | Fault.panic => false
  | Fault.undefined => false

/-- The function `Scm_SigCheck(vm)`, its loop bounded by `fuel` iterations:
line 77, the protected section, then either the `SCM_WHEN_ERROR` clause (lines
105-106, the fault is raised again by `SCM_NEXT_HANDLER`) or lines 110-111. -/
def Scm_SigCheck (N : Int) (fuel : Nat) (vm : ScmVM) : Option Exit :=
  let vm0 := { vm with blocked := sigprocmask How.SIG_BLOCK vm.sigMask vm.blocked }
  match sigCheckBody N fuel vm0 with
  | none => none
  | some e =>
    match e.fault with
    | some f =>
      if unwinds f then
        some { e with vm := { e.vm with
          blocked := sigprocmask How.SIG_UNBLOCK e.vm.sigMask e.vm.blocked } }
      else some e
    | none =>
      some { e with vm := { e.vm with
        sigOverflow := 0,
        blocked := sigprocmask How.SIG_UNBLOCK e.vm.sigMask e.vm.blocked } }

/-! ## Vocabulary of the specification -/

/-- Number of signal numbers in the queue: the distance from head to tail, going
round the `N` slots. -/
def queueCount (N : Int) (vm : ScmVM) : Nat :=
  ((vm.sigQueueTail - vm.sigQueueHead) % N).toNat

/-- The content of the queue: the numbers in the slots from head up to, not
including, tail, in FIFO order, going round the `N` slots. -/
def queueContents (N : Int) (vm : ScmVM) : List Int :=
  (List.range (queueCount N vm)).map
    (fun (i : Nat) => vm.sigQueue ((vm.sigQueueHead + (i : Int)) % N))

/-- Both queue indices are valid indices of the `N`-slot buffer. -/
def inRange (N : Int) (vm : ScmVM) : Prop :=
  inBounds N vm.sigQueueHead ∧ inBounds N vm.sigQueueTail

instance (N : Int) (vm : ScmVM) : Decidable (inRange N vm) :=
  inferInstanceAs (Decidable (inBounds N vm.sigQueueHead ∧ inBounds N vm.sigQueueTail))

/-- The Scheme list whose elements are `xs`. -/
def ofList : List ScmObj → ScmObj
  | [] => ScmObj.nil
  | x :: xs => ScmObj.pair x (ofList xs)

/-- The elements of a Scheme list: the cars of its pairs, in order. -/
def listOf : ScmObj → List ScmObj
  | ScmObj.pair a d => a :: listOf d
  | _ => []

/-- The handler registry holding the entries `entries`, each a signal set and a
handler value, in order: a list of pairs `(sigset . handler)`. -/
def registryObj : List (sigset_t × ScmObj) → ScmObj
  | [] => ScmObj.nil
  | e :: es => ScmObj.pair (ScmObj.pair (ScmObj.sigset e.1) e.2) (registryObj es)

/-- The handler value of the first entry of `entries` whose set contains `signum`,
if there is one. -/
def firstMatch (entries : List (sigset_t × ScmObj)) (signum : Int) : Option ScmObj :=
  (entries.find? (fun e => decide (signum ∈ e.1.members))).map (fun e => e.2)

/-- In the registry object `reg`, the entry `(set . h)` contains `signum` and no
entry before it does: every earlier entry is a pair of a signal set, which does
not contain `signum`, and a handler. -/
def IsFirstMatch (reg : ScmObj) (signum : Int) (h : ScmObj) : Prop :=
  ∃ (before : List ScmObj) (set : sigset_t) (after : List ScmObj),
    listOf reg = before ++ ScmObj.pair (ScmObj.sigset set) h :: after ∧
    signum ∈ set.members ∧
    ∀ e ∈ before, ∃ (set1 : sigset_t) (h1 : ScmObj),
      e = ScmObj.pair (ScmObj.sigset set1) h1 ∧ signum ∉ set1.members

/-- Whether some entry of the registry object `reg` is a pair of a signal set
containing `signum` and a handler. -/
def hasMatch (reg : ScmObj) (signum : Int) : Bool :=
  (listOf reg).any (fun e =>
    match e with
    | ScmObj.pair (ScmObj.sigset set) _ => decide (signum ∈ set.members)
    | _ => false)

/-- The enqueue operation as the specification words it: a no-op when overflow
is set; otherwise `signum` is written at `tail`, `tail` advances to
`(tail + 1) mod N`, and overflow is set if the advance makes `tail` equal to
`head`. -/
def enqueue_spec (N : Int) (signum : Int) (vm : ScmVM) : ScmVM :=
  if vm.sigOverflow ≠ 0 then vm
  else
    let t := (vm.sigQueueTail + 1) % N
    { vm with
      sigQueue := Function.update vm.sigQueue vm.sigQueueTail signum,
      sigQueueTail := t,
      sigOverflow := if t = vm.sigQueueHead then 1 else 0 }

/-! ## Auxiliary functions of the proofs -/

/-- The handler value that the scan of `reg` finds for `signum`, if any. -/
def handlerFor (reg : ScmObj) (signum : Int) : Option ScmObj :=
  match scanHandlers signum reg with
  | Scan.matched h => some h
  | _ => none

/-- The pending object and the local `tail` after the handler values `hs` have
gone through `appendHandler`, one after the other. -/
def pendingAfter : List ScmObj → ScmObj → TailPtr → ScmObj × TailPtr
  | [], p, tp => (p, tp)
  | h :: hs, p, TailPtr.null =>
    pendingAfter hs p (TailPtr.lastOfFresh (ScmObj.pair h ScmObj.nil))
  | h :: hs, p, TailPtr.lastOfPending =>
    pendingAfter hs (setLastCdr (ScmObj.pair h ScmObj.nil) p) TailPtr.lastOfPending
  | h :: hs, p, TailPtr.lastOfFresh chain =>
    pendingAfter hs p (TailPtr.lastOfFresh (setLastCdr (ScmObj.pair h ScmObj.nil) chain))

/-- A registry object all of whose entries are pairs of a signal set and a
handler value. -/
def wellFormed : ScmObj → Prop
  | ScmObj.pair (ScmObj.pair (ScmObj.sigset _) _) rest => wellFormed rest
  | ScmObj.pair _ _ => False
  | _ => True

/-! ## Statements about exits -/

/-- What holds of an exit `e` of the loop started in state `vm` with the local
`tail` designating `tp`, where `d` is the list of numbers the loop read. -/
structure LoopPost (N : Int) (vm : ScmVM) (tp : TailPtr) (e : Exit) (d : List Int) : Prop where
  pending : (e.vm.sigPending, e.tail) =
    pendingAfter (d.filterMap (handlerFor vm.sigHandlers)) vm.sigPending tp
  queue : e.vm.sigQueue = vm.sigQueue
  tail : e.vm.sigQueueTail = vm.sigQueueTail
  overflow : e.vm.sigOverflow = vm.sigOverflow
  handlers : e.vm.sigHandlers = vm.sigHandlers
  mask : e.vm.sigMask = vm.sigMask
  blocked : e.vm.blocked = vm.blocked
  head : e.fault = none → e.vm.sigQueueHead = vm.sigQueueTail
  noError : e.fault ≠ some Fault.error
  panic : e.fault = some Fault.panic →
    ∃ s ∈ d, scanHandlers s vm.sigHandlers = Scan.assertFailed
  noPanic : e.fault ≠ some Fault.panic →
    ∀ s ∈ d, scanHandlers s vm.sigHandlers ≠ Scan.assertFailed
  defined : inRange N vm → e.fault ≠ some Fault.undefined
  rangeKept : inRange N vm → inRange N e.vm
  contents : inRange N vm → d ++ queueContents N e.vm = queueContents N vm

/-- What holds of an exit `e` of `Scm_SigCheck` called in state `vm`. -/
structure SigCheckPost (N : Int) (vm : ScmVM) (e : Exit) : Prop where
  queue : e.vm.sigQueue = vm.sigQueue
  tail : e.vm.sigQueueTail = vm.sigQueueTail
  handlers : e.vm.sigHandlers = vm.sigHandlers
  mask : e.vm.sigMask = vm.sigMask
  head : e.fault = none → e.vm.sigQueueHead = vm.sigQueueTail
  overflow : e.fault = none → e.vm.sigOverflow = 0
  overflowKept : e.fault ≠ none → e.vm.sigOverflow = vm.sigOverflow
  pending : ∀ tp, initTail vm.sigPending = .ok tp →
    (e.vm.sigPending, e.tail) =
      pendingAfter (e.drained.filterMap (handlerFor vm.sigHandlers)) vm.sigPending tp
  error : ∀ f, initTail vm.sigPending = .error f →
    e.fault = some Fault.error ∧ e.drained = [] ∧ e.vm.sigPending = vm.sigPending ∧
      e.vm.sigQueueHead = vm.sigQueueHead
  errorOnly : e.fault = some Fault.error → initTail vm.sigPending = .error Fault.error
  panic : e.fault = some Fault.panic →
    ∃ s ∈ e.drained, scanHandlers s vm.sigHandlers = Scan.assertFailed
  noPanic : e.fault ≠ some Fault.panic →
    ∀ s ∈ e.drained, scanHandlers s vm.sigHandlers ≠ Scan.assertFailed
  defined : inRange N vm → e.fault ≠ some Fault.undefined
  rangeKept : inRange N vm → inRange N e.vm
  contents : inRange N vm → e.drained ++ queueContents N e.vm = queueContents N vm
  unblocked : e.fault = none ∨ e.fault = some Fault.error →
    e.vm.blocked = sigprocmask How.SIG_UNBLOCK vm.sigMask
      (sigprocmask How.SIG_BLOCK vm.sigMask vm.blocked)
  stillBlocked : e.fault = some Fault.panic ∨ e.fault = some Fault.undefined →
    e.vm.blocked = sigprocmask How.SIG_BLOCK vm.sigMask vm.blocked

/-! ## Composite runs and concrete states -/

/-- The calls `sig_handle(s)` for the numbers `s` of `sigs`, followed by one call
of `Scm_SigCheck`; `none` if a call of `sig_handle` faults or the loop bound is
reached. -/
def handleThenCheck (N : Int) (fuel : Nat) (sigs : List Int) (vm : ScmVM) : Option Exit :=
  match sig_handle_all N sigs vm with
  | .ok vm1 => Scm_SigCheck N fuel vm1
  | .error _ => none

/-- The signal number of SIGINT. -/
def SIGINT : Int := 2

/-- The signal number of SIGTERM. -/
def SIGTERM : Int := 15

/-- A handler value. -/
def H1 : ScmObj := ScmObj.other 1

/-- Another handler value. -/
def H2 : ScmObj := ScmObj.other 2

/-- The registrations `[({INT}, H1), ({INT, TERM}, H2)]`. -/
def exampleEntries : List (sigset_t × ScmObj) :=
  [({ members := [SIGINT] }, H1), ({ members := [SIGINT, SIGTERM] }, H2)]

/-- A VM state whose queue is empty with head and tail at slot `h`, with overflow
clear, the registry `exampleEntries` and the pending object `pending`. -/
def emptyVM (h : Int) (pending : ScmObj) : ScmVM where
  sigQueue := fun _ => 0
  sigQueueHead := h
  sigQueueTail := h
  sigOverflow := 0
  sigPending := pending
  sigHandlers := registryObj exampleEntries
  sigMask := { members := [SIGINT, SIGTERM] }
  blocked := []

/-- A VM state whose queue holds the numbers `q` in the slots from 0 on (head at
slot 0, tail at slot `q.length`), with the registry `exampleEntries`, the pending
object `pending` and the overflow flag `overflow`. -/
def queuedVM (q : List Int) (pending : ScmObj) (overflow : Int) : ScmVM where
  sigQueue := fun i => q.getD i.toNat 0
  sigQueueHead := 0
  sigQueueTail := q.length
  sigOverflow := overflow
  sigPending := pending
  sigHandlers := registryObj exampleEntries
  sigMask := { members := [SIGINT, SIGTERM] }
  blocked := []

/-- The state `queuedVM [INT, 7, INT] [H2]` with the overflow flag set; no set of
`exampleEntries` contains 7. -/
def overflowVM : ScmVM := queuedVM [SIGINT, 7, SIGINT] (ofList [H2]) 1

/-- The exit of `Scm_SigCheck` called in the state `overflowVM`. -/
def overflowExit : Exit where
  vm := { queuedVM [SIGINT, 7, SIGINT] (ofList [H2, H1, H1]) 0 with sigQueueHead := 3 }
  tail := TailPtr.lastOfPending
  drained := [SIGINT, 7, SIGINT]
  fault := none

/-- A state with an empty queue at slot 0 and the overflow flag set, as a lap of
the tail index onto the head index leaves it. -/
def stuckVM : ScmVM := queuedVM [] ScmObj.nil 1

/-- The exit of `Scm_SigCheck` called in the state `stuckVM`. -/
def stuckExit : Exit where
  vm := { queuedVM [] ScmObj.nil 0 with
    blocked := sigprocmask How.SIG_UNBLOCK { members := [SIGINT, SIGTERM] }
      (sigprocmask How.SIG_BLOCK { members := [SIGINT, SIGTERM] } []) }
  tail := TailPtr.null
  drained := []
  fault := none

/-- The numbers 1, 2, .., n. -/
def oneTo (n : Nat) : List Int :=
  (List.range n).map (fun (i : Nat) => (i : Int) + 1)

/-- A VM state with 32 slots in use as a full lap would leave them: head at slot
0, tail at slot 31, overflow clear. -/
def lastSlotVM : ScmVM where
  sigQueue := fun _ => SIGINT
  sigQueueHead := 0
  sigQueueTail := 31
  sigOverflow := 0
  sigPending := ScmObj.nil
  sigHandlers := registryObj exampleEntries
  sigMask := { members := [SIGINT, SIGTERM] }
  blocked := []

/-- The handler values `hs` as far as they are added to a pending object `p`:
all of them when `p` is a pair, none otherwise. -/
def appendedTo (p : ScmObj) (hs : List ScmObj) : List ScmObj :=
  match p with
  | ScmObj.pair _ _ => hs
  | _ => []

/-- A registry whose first entry is `({INT} . H1)` and whose second entry is not
a pair. -/
def malformedRegistry : ScmObj :=
  ScmObj.pair (ScmObj.pair (ScmObj.sigset { members := [SIGINT] }) H1)
    (ScmObj.pair (ScmObj.other 5) ScmObj.nil)

/-- A state of 32 slots with the queue `INT, TERM, INT`, the pending list `[H2]`
and the registry `malformedRegistry`. -/
def malformedVM : ScmVM :=
  { queuedVM [SIGINT, SIGTERM, SIGINT] (ofList [H2]) 0 with sigHandlers := malformedRegistry }

/-- What the local `tail` designates after the handler values `hs` have been
appended starting from a null `tail`: nothing if there are none, otherwise the
last pair of a fresh list of them. -/
def freshTail (hs : List ScmObj) : TailPtr :=
  match hs with
  | [] => TailPtr.null
  | h :: rest => TailPtr.lastOfFresh (ofList (h :: rest))

/-- A call made on the VM: `sig_handle(signum)`, or `Scm_SigCheck` with a bound
on the iterations of its loop. -/
inductive Op where
  | handle (signum : Int) : Op
  | check (fuel : Nat) : Op
deriving DecidableEq, Repr

/-- The state after the calls `ops`, made one after the other from the state
`vm`.  A call of `Scm_SigCheck` that ends in a fault also leaves a state from
which the run goes on.  `none` if a call of `sig_handle` faults or a loop bound is
reached. -/
def runOps (N : Int) : List Op → ScmVM → Option ScmVM
  | [], vm => some vm
  | Op.handle s :: ops, vm =>
    match sig_handle N s vm with
    | .ok vm1 => runOps N ops vm1
    | .error _ => none
  | Op.check fuel :: ops, vm =>
    match Scm_SigCheck N fuel vm with
    | some e => runOps N ops e.vm
    | none => none

/-- Calls that lead from the fresh queue of 32 slots to a set overflow flag: one
number is enqueued and drained, which moves head and tail to slot 1, and 32
numbers are enqueued. -/
def overflowOps : List Op :=
  Op.handle SIGINT :: Op.check 1 :: (oneTo 32).map Op.handle

/-- The state that the calls `overflowOps` lead to from the fresh queue of 32
slots. -/
def overflowReachedVM : ScmVM :=
  (runOps 32 overflowOps (emptyVM 0 ScmObj.nil)).getD (emptyVM 0 ScmObj.nil)

/-! ## `Scm_SigCheck` when memory can run out -/

/-- Modelled from the spec: the allocation made by `Scm_Cons` (list.c, not among
the sources) when memory can run out ("if step 4's registry scan or append
operation faults (e.g., resource exhaustion)").  `cells` is the number of cells
that can still be allocated, `none` where there is no limit.  With no cell left
the call raises a Scheme error; otherwise one cell fewer is left. -/
def allocCell (cells : Option Nat) : Except Fault (Option Nat) :=
  match cells with
  | none => .ok none
  | some 0 => .error Fault.error
  | some (n + 1) => .ok (some n)

/-- Lines 83-102 with `Scm_Cons` of lines 94 and 96 drawing on `cells`: the loop
`sigCheckLoop`, except that a match first allocates the cell; when that raises
an error the iteration ends there, before the assignment to `tail` or
`SCM_SET_CDR` is made. -/
def sigCheckLoopCells (N : Int) : Nat → Option Nat → ScmVM → TailPtr → List Int → Option Exit
  | fuel, cells, vm, tail, drained =>
    if vm.sigQueueHead = vm.sigQueueTail then
      some { vm := vm, tail := tail, drained := drained, fault := none }
    else
      match fuel with
      | 0 => none
      | fuel + 1 =>
        if ¬ inBounds N vm.sigQueueHead then
          some { vm := vm, tail := tail, drained := drained, fault := some Fault.undefined }
        else
          let signum := (dequeue N vm).1
          let vm2 := (dequeue N vm).2
          match scanHandlers signum vm2.sigHandlers with
          | Scan.assertFailed =>
            some { vm := vm2, tail := tail, drained := drained ++ [signum],
                   fault := some Fault.panic }
          | Scan.unmatched => sigCheckLoopCells N fuel cells vm2 tail (drained ++ [signum])
          | Scan.matched h =>
            match allocCell cells with
            | .error f =>
              some { vm := vm2, tail := tail, drained := drained ++ [signum], fault := some f }
            | .ok cells1 =>
              let r := appendHandler h vm2 tail
              sigCheckLoopCells N fuel cells1 r.1 r.2 (drained ++ [signum])

/-- Lines 81-102 with `Scm_Cons` drawing on `cells`. -/
def sigCheckBodyCells (N : Int) (fuel : Nat) (cells : Option Nat) (vm : ScmVM) : Option Exit :=
  match initTail vm.sigPending with
  | .error f => some { vm := vm, tail := TailPtr.null, drained := [], fault := some f }
  | .ok tail => sigCheckLoopCells N fuel cells vm tail []

/-- The function `Scm_SigCheck(vm)` with `Scm_Cons` drawing on `cells`: line 77,
the protected section, then either the `SCM_WHEN_ERROR` clause (lines 105-106)
or lines 110-111, as in `Scm_SigCheck`. -/
def Scm_SigCheck_cells (N : Int) (fuel : Nat) (cells : Option Nat) (vm : ScmVM) : Option Exit :=
  let vm0 := { vm with blocked := sigprocmask How.SIG_BLOCK vm.sigMask vm.blocked }
  match sigCheckBodyCells N fuel cells vm0 with
  | none => none
  | some e =>
    match e.fault with
    | some f =>
      if unwinds f then
        some { e with vm := { e.vm with
          blocked := sigprocmask How.SIG_UNBLOCK e.vm.sigMask e.vm.blocked } }
      else some e
    | none =>
      some { e with vm := { e.vm with
        sigOverflow := 0,
        blocked := sigprocmask How.SIG_UNBLOCK e.vm.sigMask e.vm.blocked } }

/-- What holds of an exit `e` of the loop `sigCheckLoopCells` started in state
`vm` with the local `tail` designating `tp`, where `d` is the list of numbers the
loop read. -/
structure CellsPost (N : Int) (vm : ScmVM) (tp : TailPtr) (e : Exit) (d : List Int) : Prop where
  queue : e.vm.sigQueue = vm.sigQueue
  tail : e.vm.sigQueueTail = vm.sigQueueTail
  overflow : e.vm.sigOverflow = vm.sigOverflow
  handlers : e.vm.sigHandlers = vm.sigHandlers
  mask : e.vm.sigMask = vm.sigMask
  blocked : e.vm.blocked = vm.blocked
  head : e.fault = none → e.vm.sigQueueHead = vm.sigQueueTail
  pending : e.fault = none → (e.vm.sigPending, e.tail) =
    pendingAfter (d.filterMap (handlerFor vm.sigHandlers)) vm.sigPending tp
  faulted : ∀ f, e.fault = some f → f ≠ Fault.undefined →
    ∃ processed s, d = processed ++ [s] ∧
      (e.vm.sigPending, e.tail) =
        pendingAfter (processed.filterMap (handlerFor vm.sigHandlers)) vm.sigPending tp ∧
      (f = Fault.panic → scanHandlers s vm.sigHandlers = Scan.assertFailed) ∧
      (f = Fault.error → ∃ h, scanHandlers s vm.sigHandlers = Scan.matched h)
  defined : inRange N vm → e.fault ≠ some Fault.undefined
  rangeKept : inRange N vm → inRange N e.vm
  contents : inRange N vm → d ++ queueContents N e.vm = queueContents N vm

/-- A state of 32 slots with the queue `INT, TERM, INT`, the pending list `[H2]`
and the registry `exampleEntries`. -/
def threeQueuedVM : ScmVM := queuedVM [SIGINT, SIGTERM, SIGINT] (ofList [H2]) 0

/-- The exit of the protected section entered from `threeQueuedVM` (after line
77) with one cell left: the cell goes to `H1` for the first `INT`, and the
allocation for `TERM` raises an error. -/
def allocFaultBodyExit : Exit where
  vm := { queuedVM [SIGINT, SIGTERM, SIGINT] (ofList [H2, H1]) 0 with
    sigQueueHead := 2, blocked := [SIGINT, SIGTERM] }
  tail := TailPtr.lastOfPending
  drained := [SIGINT, SIGTERM]
  fault := some Fault.error

/-- The exit of `Scm_SigCheck_cells` called in the state `threeQueuedVM` with one
cell left. -/
def allocFaultExit : Exit where
  vm := { queuedVM [SIGINT, SIGTERM, SIGINT] (ofList [H2, H1]) 0 with sigQueueHead := 2 }
  tail := TailPtr.lastOfPending
  drained := [SIGINT, SIGTERM]
  fault := some Fault.error

/-! ## Arithmetic of the ring indices -/

/-- Reduction modulo `N` of a number in `[0, 2N)`. -/
theorem emod_wrap (N x : Int) (h0 : 0 ≤ x) (h1 : x < 2 * N) :
    x % N = if x < N then x else x - N := by
  split_ifs with h
  · exact Int.emod_eq_of_lt h0 h
  · have h2 : x - N < N := by omega
    have h3 : 0 ≤ x - N := by omega
    have : x % N = (x - N) % N := by
      rw [Int.sub_emod, Int.emod_self, sub_zero, Int.emod_emod_of_dvd _ (dvd_refl N)]
    rw [this]; exact Int.emod_eq_of_lt h3 h2

/-- Reduction modulo `N` of a number in `[-N, N)`. -/
theorem emod_wrap_neg (N x : Int) (h0 : -N ≤ x) (h1 : x < N) :
    x % N = if 0 ≤ x then x else x + N := by
  split_ifs with h
  · exact Int.emod_eq_of_lt h h1
  · have : x % N = (x + N) % N := by
      rw [Int.add_emod_self]
    rw [this]; exact Int.emod_eq_of_lt (by omega) (by omega)

theorem queueCount_eq (N : Int) (vm : ScmVM) (h : inRange N vm) :
    (queueCount N vm : Int) =
      if vm.sigQueueHead ≤ vm.sigQueueTail then vm.sigQueueTail - vm.sigQueueHead
      else vm.sigQueueTail - vm.sigQueueHead + N := by
  obtain ⟨⟨h1, h2⟩, h3, h4⟩ := h
  unfold queueCount
  rw [emod_wrap_neg N _ (by omega) (by omega)]
  split_ifs <;> omega

theorem queueCount_lt (N : Int) (vm : ScmVM) (h : inRange N vm) :
    (queueCount N vm : Int) < N := by
  have := queueCount_eq N vm h
  obtain ⟨⟨h1, h2⟩, h3, h4⟩ := h
  split_ifs at this <;> omega

theorem queueCount_eq_zero_iff (N : Int) (vm : ScmVM) (h : inRange N vm) :
    queueCount N vm = 0 ↔ vm.sigQueueHead = vm.sigQueueTail := by
  have := queueCount_eq N vm h
  obtain ⟨⟨h1, h2⟩, h3, h4⟩ := h
  split_ifs at this <;> omega

theorem dequeue_fst (N : Int) (vm : ScmVM) : (dequeue N vm).1 = vm.sigQueue vm.sigQueueHead := by
  unfold dequeue; simp only []; split_ifs <;> rfl

theorem dequeue_snd (N : Int) (vm : ScmVM) :
    (dequeue N vm).2 = { vm with sigQueueHead :=
      if vm.sigQueueHead + 1 ≥ N then 0 else vm.sigQueueHead + 1 } := by
  unfold dequeue; simp only []; split_ifs <;> rfl

theorem dequeue_inRange (N : Int) (vm : ScmVM) (h : inRange N vm) :
    inRange N (dequeue N vm).2 := by
  obtain ⟨⟨h1, h2⟩, h3, h4⟩ := h
  rw [dequeue_snd]
  refine ⟨⟨?_, ?_⟩, h3, h4⟩ <;> simp only [] <;> split_ifs <;> omega

theorem dequeue_count (N : Int) (vm : ScmVM) (h : inRange N vm)
    (hne : vm.sigQueueHead ≠ vm.sigQueueTail) :
    queueCount N vm = queueCount N (dequeue N vm).2 + 1 := by
  have e1 := queueCount_eq N vm h
  have e2 := queueCount_eq N _ (dequeue_inRange N vm h)
  obtain ⟨⟨h1, h2⟩, h3, h4⟩ := h
  rw [dequeue_snd] at e2 ⊢
  by_cases hw : vm.sigQueueHead + 1 ≥ N
  · simp only [hw, if_true] at e2 ⊢
    split_ifs at e1 e2 <;> omega
  · simp only [hw, if_false] at e2 ⊢
    split_ifs at e1 e2 <;> omega

theorem dequeue_contents (N : Int) (vm : ScmVM) (h : inRange N vm)
    (hne : vm.sigQueueHead ≠ vm.sigQueueTail) :
    queueContents N vm = (dequeue N vm).1 :: queueContents N (dequeue N vm).2 := by
  have hc := dequeue_count N vm h hne
  obtain ⟨⟨h1, h2⟩, h3, h4⟩ := h
  unfold queueContents
  rw [hc, List.range_succ_eq_map, List.map_cons, List.map_map, dequeue_fst]
  congr 1
  · simp [Int.emod_eq_of_lt h1 h2]
  · apply List.map_congr_left
    intro i _
    rw [dequeue_snd]
    simp only [Function.comp, Nat.succ_eq_add_one, Nat.cast_add, Nat.cast_one]
    congr 1
    split_ifs with hw
    · have : vm.sigQueueHead + (↑i + 1) = (0 + (i : Int)) + N := by omega
      rw [this, Int.add_emod_self]
    · congr 1; omega

/-! ## `sig_handle` -/

theorem sig_handle_of_overflow (N s : Int) (vm : ScmVM) (h : vm.sigOverflow ≠ 0) :
    sig_handle N s vm = .ok vm := by
  simp [sig_handle, h]

/-- What a call of `sig_handle` does when overflow is clear and the tail index
is valid. -/
theorem sig_handle_ok (N s : Int) (vm : ScmVM) (hov : vm.sigOverflow = 0)
    (ht : inBounds N vm.sigQueueTail) :
    ∃ vm1, sig_handle N s vm = .ok vm1 ∧
      vm1.sigQueue = Function.update vm.sigQueue vm.sigQueueTail s ∧
      vm1.sigQueueHead = vm.sigQueueHead ∧
      vm1.sigQueueTail =
        (if vm.sigQueueHead ≤ vm.sigQueueTail then
          (if vm.sigQueueTail + 1 ≥ N then 0 else vm.sigQueueTail + 1)
         else vm.sigQueueTail + 1) ∧
      vm1.sigOverflow =
        (if vm.sigQueueHead ≤ vm.sigQueueTail then 0
         else if vm.sigQueueTail + 1 ≥ vm.sigQueueHead then 1 else 0) ∧
      vm1.sigPending = vm.sigPending ∧ vm1.sigHandlers = vm.sigHandlers ∧
      vm1.sigMask = vm.sigMask ∧ vm1.blocked = vm.blocked := by
  unfold sig_handle
  simp only [hov, ne_eq, not_true_eq_false, if_false, ht, not_true_eq_false]
  split_ifs <;> simp [hov]

/-- A call of `sig_handle` on a queue with overflow clear that has room for one
more number appends the number to the content of the queue. -/
theorem sig_handle_enqueue (N s : Int) (vm : ScmVM) (h : inRange N vm)
    (hov : vm.sigOverflow = 0) (hroom : (queueCount N vm : Int) + 1 < N) :
    ∃ vm1, sig_handle N s vm = .ok vm1 ∧ inRange N vm1 ∧ vm1.sigOverflow = 0 ∧
      vm1.sigQueueHead = vm.sigQueueHead ∧
      queueCount N vm1 = queueCount N vm + 1 ∧
      queueContents N vm1 = queueContents N vm ++ [s] ∧
      vm1.sigPending = vm.sigPending ∧ vm1.sigHandlers = vm.sigHandlers ∧
      vm1.sigMask = vm.sigMask ∧ vm1.blocked = vm.blocked := by
  obtain ⟨vm1, hk, hq, hh, ht, ho, hp, hr, hm, hb⟩ := sig_handle_ok N s vm hov h.2
  have e1 := queueCount_eq N vm h
  obtain ⟨⟨h1, h2⟩, h3, h4⟩ := h
  have hin : inRange N vm1 := by
    refine ⟨⟨by omega, by omega⟩, ?_, ?_⟩ <;> rw [ht] <;> split_ifs at e1 ⊢ <;> omega
  have e2 := queueCount_eq N vm1 hin
  have hc : queueCount N vm1 = queueCount N vm + 1 := by
    rw [hh, ht] at e2
    split_ifs at e1 e2 <;> omega
  refine ⟨vm1, hk, hin, ?_, hh, hc, ?_, hp, hr, hm, hb⟩
  · rw [ho]; split_ifs at e1 ⊢ <;> omega
  · unfold queueContents
    rw [hc, List.range_succ, List.map_append, hh, hq]
    congr 1
    · apply List.map_congr_left
      intro i hi
      have hi1 : i < queueCount N vm := List.mem_range.mp hi
      have hw := emod_wrap N (vm.sigQueueHead + (i : Int)) (by omega) (by omega)
      rw [Function.update_noteq]
      rw [hw]
      split_ifs at e1 ⊢ <;> omega
    · have hw := emod_wrap N (vm.sigQueueHead + (queueCount N vm : Int)) (by omega) (by omega)
      have : (vm.sigQueueHead + (queueCount N vm : Int)) % N = vm.sigQueueTail := by
        rw [hw]; split_ifs at e1 ⊢ <;> omega
      simp only [List.map_cons, List.map_nil]
      rw [this, Function.update_same]

/-- Calls of `sig_handle` for numbers that all fit into the queue append the
numbers to the content of the queue, in order. -/
theorem sig_handle_all_enqueue (N : Int) (sigs : List Int) :
    ∀ (vm : ScmVM), inRange N vm → vm.sigOverflow = 0 →
      (queueCount N vm : Int) + sigs.length < N →
      ∃ vm1, sig_handle_all N sigs vm = .ok vm1 ∧ inRange N vm1 ∧ vm1.sigOverflow = 0 ∧
        vm1.sigQueueHead = vm.sigQueueHead ∧
        queueCount N vm1 = queueCount N vm + sigs.length ∧
        queueContents N vm1 = queueContents N vm ++ sigs ∧
        vm1.sigPending = vm.sigPending ∧ vm1.sigHandlers = vm.sigHandlers ∧
        vm1.sigMask = vm.sigMask ∧ vm1.blocked = vm.blocked := by
  induction sigs with
  | nil =>
    intro vm h hov _
    exact ⟨vm, rfl, h, hov, rfl, by simp, by simp, rfl, rfl, rfl, rfl⟩
  | cons s rest ih =>
    intro vm h hov hroom
    simp only [List.length_cons, Nat.cast_add, Nat.cast_one] at hroom
    obtain ⟨vm1, hk, hin, ho, hh, hc, hq, hp, hr, hm, hb⟩ :=
      sig_handle_enqueue N s vm h hov (by omega)
    obtain ⟨vm2, hk2, hin2, ho2, hh2, hc2, hq2, hp2, hr2, hm2, hb2⟩ :=
      ih vm1 hin ho (by rw [hc]; push_cast; omega)
    refine ⟨vm2, ?_, hin2, ho2, hh2.trans hh, ?_, ?_, hp2.trans hp, hr2.trans hr,
      hm2.trans hm, hb2.trans hb⟩
    · simp only [sig_handle_all, hk, hk2]
    · rw [hc2, hc, List.length_cons]; omega
    · rw [hq2, hq, List.append_assoc, List.singleton_append]

theorem pendingAfter_cons (h : ScmObj) (hs : List ScmObj) (p : ScmObj) (tp : TailPtr) :
    pendingAfter (h :: hs) p tp =
      pendingAfter hs (pendingAfter [h] p tp).1 (pendingAfter [h] p tp).2 := by
  cases tp <;> rfl

theorem appendHandler_eq (h : ScmObj) (vm : ScmVM) (tp : TailPtr) :
    appendHandler h vm tp =
      ({ vm with sigPending := (pendingAfter [h] vm.sigPending tp).1 },
       (pendingAfter [h] vm.sigPending tp).2) := by
  cases tp <;> rfl

theorem sigCheckLoop_done (N : Int) (fuel : Nat) (vm : ScmVM) (tp : TailPtr) (acc : List Int)
    (h : vm.sigQueueHead = vm.sigQueueTail) :
    sigCheckLoop N fuel vm tp acc =
      some { vm := vm, tail := tp, drained := acc, fault := none } := by
  cases fuel <;> simp [sigCheckLoop, h]

theorem sigCheckLoop_zero (N : Int) (vm : ScmVM) (tp : TailPtr) (acc : List Int)
    (h : vm.sigQueueHead ≠ vm.sigQueueTail) :
    sigCheckLoop N 0 vm tp acc = none := by
  simp [sigCheckLoop, h]

theorem sigCheckLoop_succ (N : Int) (fuel : Nat) (vm : ScmVM) (tp : TailPtr) (acc : List Int)
    (h : vm.sigQueueHead ≠ vm.sigQueueTail) (hb : inBounds N vm.sigQueueHead) :
    sigCheckLoop N (fuel + 1) vm tp acc =
      match scanHandlers (dequeue N vm).1 (dequeue N vm).2.sigHandlers with
      | Scan.assertFailed =>
        some { vm := (dequeue N vm).2, tail := tp, drained := acc ++ [(dequeue N vm).1],
               fault := some Fault.panic }
      | Scan.unmatched => sigCheckLoop N fuel (dequeue N vm).2 tp (acc ++ [(dequeue N vm).1])
      | Scan.matched hd =>
        sigCheckLoop N fuel (appendHandler hd (dequeue N vm).2 tp).1
          (appendHandler hd (dequeue N vm).2 tp).2 (acc ++ [(dequeue N vm).1]) := by
  rw [sigCheckLoop]
  simp only [h, if_false, hb, not_true_eq_false]

theorem sigCheckLoop_undefined (N : Int) (fuel : Nat) (vm : ScmVM) (tp : TailPtr)
    (acc : List Int) (h : vm.sigQueueHead ≠ vm.sigQueueTail) (hb : ¬ inBounds N vm.sigQueueHead) :
    sigCheckLoop N (fuel + 1) vm tp acc =
      some { vm := vm, tail := tp, drained := acc, fault := some Fault.undefined } := by
  rw [sigCheckLoop]
  simp only [h, if_false, hb, not_false_eq_true, if_true]

/-! ## The loop of `Scm_SigCheck` -/

theorem queueCount_congr (N : Int) (vm vm1 : ScmVM) (hh : vm1.sigQueueHead = vm.sigQueueHead)
    (ht : vm1.sigQueueTail = vm.sigQueueTail) : queueCount N vm1 = queueCount N vm := by
  unfold queueCount; rw [hh, ht]

theorem queueContents_congr (N : Int) (vm vm1 : ScmVM) (hq : vm1.sigQueue = vm.sigQueue)
    (hh : vm1.sigQueueHead = vm.sigQueueHead) (ht : vm1.sigQueueTail = vm.sigQueueTail) :
    queueContents N vm1 = queueContents N vm := by
  unfold queueContents; rw [queueCount_congr N vm vm1 hh ht, hq, hh]

theorem inRange_congr (N : Int) (vm vm1 : ScmVM) (hh : vm1.sigQueueHead = vm.sigQueueHead)
    (ht : vm1.sigQueueTail = vm.sigQueueTail) : inRange N vm1 ↔ inRange N vm := by
  unfold inRange; rw [hh, ht]

theorem queueContents_empty (N : Int) (vm : ScmVM) (h : vm.sigQueueHead = vm.sigQueueTail) :
    queueContents N vm = [] := by
  unfold queueContents queueCount
  rw [h]; simp

theorem handlerFor_of_matched (reg : ScmObj) (s : Int) (h : ScmObj)
    (hs : scanHandlers s reg = Scan.matched h) : handlerFor reg s = some h := by
  unfold handlerFor; rw [hs]

theorem handlerFor_of_unmatched (reg : ScmObj) (s : Int)
    (hs : scanHandlers s reg = Scan.unmatched) : handlerFor reg s = none := by
  unfold handlerFor; rw [hs]

theorem handlerFor_of_assertFailed (reg : ScmObj) (s : Int)
    (hs : scanHandlers s reg = Scan.assertFailed) : handlerFor reg s = none := by
  unfold handlerFor; rw [hs]

theorem loopPost_done (N : Int) (vm : ScmVM) (tp : TailPtr) (acc : List Int)
    (h : vm.sigQueueHead = vm.sigQueueTail) :
    LoopPost N vm tp { vm := vm, tail := tp, drained := acc, fault := none } [] where
  pending := rfl
  queue := rfl
  tail := rfl
  overflow := rfl
  handlers := rfl
  mask := rfl
  blocked := rfl
  head := fun _ => h
  noError := by simp
  panic := by simp
  noPanic := by simp
  defined := by simp
  rangeKept := fun hr => hr
  contents := fun _ => by simp

/-- Partial correctness of the loop: every exit satisfies `LoopPost`. -/
theorem sigCheckLoop_post (N : Int) (fuel : Nat) :
    ∀ (vm : ScmVM) (tp : TailPtr) (acc : List Int) (e : Exit),
      sigCheckLoop N fuel vm tp acc = some e →
      ∃ d, e.drained = acc ++ d ∧ LoopPost N vm tp e d := by
  induction fuel with
  | zero =>
    intro vm tp acc e he
    by_cases h : vm.sigQueueHead = vm.sigQueueTail
    · rw [sigCheckLoop_done N 0 vm tp acc h] at he
      cases he
      exact ⟨[], by simp, loopPost_done N vm tp acc h⟩
    · rw [sigCheckLoop_zero N vm tp acc h] at he
      cases he
  | succ fuel ih =>
    intro vm tp acc e he
    by_cases h : vm.sigQueueHead = vm.sigQueueTail
    · rw [sigCheckLoop_done N _ vm tp acc h] at he
      cases he
      exact ⟨[], by simp, loopPost_done N vm tp acc h⟩
    by_cases hb : inBounds N vm.sigQueueHead
    swap
    · rw [sigCheckLoop_undefined N fuel vm tp acc h hb] at he
      cases he
      refine ⟨[], by simp, ?_⟩
      have hnr : ¬ inRange N vm := fun hr => hb hr.1
      exact {
        pending := rfl, queue := rfl, tail := rfl, overflow := rfl, handlers := rfl,
        mask := rfl, blocked := rfl, head := by simp, noError := by simp,
        panic := by simp, noPanic := by simp,
        defined := fun hr => absurd hr hnr, rangeKept := fun hr => absurd hr hnr,
        contents := fun hr => absurd hr hnr }
    rw [sigCheckLoop_succ N fuel vm tp acc h hb] at he
    have hsnd := dequeue_snd N vm
    have hH : (dequeue N vm).2.sigHandlers = vm.sigHandlers := by rw [hsnd]
    have hT : (dequeue N vm).2.sigQueueTail = vm.sigQueueTail := by rw [hsnd]
    have hQ : (dequeue N vm).2.sigQueue = vm.sigQueue := by rw [hsnd]
    have hP : (dequeue N vm).2.sigPending = vm.sigPending := by rw [hsnd]
    have hO : (dequeue N vm).2.sigOverflow = vm.sigOverflow := by rw [hsnd]
    have hM : (dequeue N vm).2.sigMask = vm.sigMask := by rw [hsnd]
    have hB : (dequeue N vm).2.blocked = vm.blocked := by rw [hsnd]
    rw [hH] at he
    generalize hs : (dequeue N vm).1 = s at he
    generalize hvm2 : (dequeue N vm).2 = vm2 at he hH hT hQ hP hO hM hB
    have hcont : inRange N vm → queueContents N vm = s :: queueContents N vm2 := by
      intro hr; rw [← hs, ← hvm2]; exact dequeue_contents N vm hr h
    have hin : inRange N vm → inRange N vm2 := by
      intro hr; rw [← hvm2]; exact dequeue_inRange N vm hr
    cases hsc : scanHandlers s vm.sigHandlers with
    | assertFailed =>
      rw [hsc] at he
      simp only [Option.some.injEq] at he
      subst he
      refine ⟨[s], rfl, ?_⟩
      exact {
        pending := by
          simp [handlerFor_of_assertFailed _ _ hsc, pendingAfter, hP]
        queue := hQ, tail := hT, overflow := hO, handlers := hH, mask := hM, blocked := hB
        head := by simp
        noError := by simp
        panic := fun _ => ⟨s, by simp, hsc⟩
        noPanic := by simp
        defined := by simp
        rangeKept := hin
        contents := fun hr => by rw [hcont hr]; rfl }
    | unmatched =>
      rw [hsc] at he
      simp only at he
      obtain ⟨d, hd, post⟩ := ih vm2 tp (acc ++ [s]) e he
      refine ⟨s :: d, by rw [hd]; simp, ?_⟩
      exact {
        pending := by
          rw [post.pending, hH, hP]
          simp [handlerFor_of_unmatched _ _ hsc]
        queue := post.queue.trans hQ, tail := post.tail.trans hT
        overflow := post.overflow.trans hO, handlers := post.handlers.trans hH
        mask := post.mask.trans hM, blocked := post.blocked.trans hB
        head := fun hf => (post.head hf).trans hT
        noError := post.noError
        panic := fun hf => by
          obtain ⟨x, hx, hx2⟩ := post.panic hf
          exact ⟨x, List.mem_cons_of_mem _ hx, by rw [← hH]; exact hx2⟩
        noPanic := fun hf x hx => by
          rcases List.mem_cons.mp hx with rfl | hx
          · rw [hsc]; simp
          · rw [← hH]; exact post.noPanic hf x hx
        defined := fun hr => post.defined (hin hr)
        rangeKept := fun hr => post.rangeKept (hin hr)
        contents := fun hr => by rw [hcont hr, List.cons_append, post.contents (hin hr)] }
    | matched hd =>
      rw [hsc] at he
      simp only at he
      rw [appendHandler_eq] at he
      simp only at he
      obtain ⟨d, hdr, post⟩ := ih _ _ (acc ++ [s]) e he
      refine ⟨s :: d, by rw [hdr]; simp, ?_⟩
      have hr2 : inRange N vm → inRange N
          { vm2 with sigPending := (pendingAfter [hd] vm2.sigPending tp).1 } :=
        fun hr => (inRange_congr N vm2 _ rfl rfl).mpr (hin hr)
      exact {
        pending := by
          rw [post.pending]
          simp only [List.filterMap_cons, hH, handlerFor_of_matched _ _ _ hsc]
          rw [hP]
          exact (pendingAfter_cons hd _ _ _).symm
        queue := post.queue.trans hQ, tail := post.tail.trans hT
        overflow := post.overflow.trans hO, handlers := post.handlers.trans hH
        mask := post.mask.trans hM, blocked := post.blocked.trans hB
        head := fun hf => (post.head hf).trans hT
        noError := post.noError
        panic := fun hf => by
          obtain ⟨x, hx, hx2⟩ := post.panic hf
          exact ⟨x, List.mem_cons_of_mem _ hx, by rw [← hH]; exact hx2⟩
        noPanic := fun hf x hx => by
          rcases List.mem_cons.mp hx with rfl | hx
          · rw [hsc]; simp
          · rw [← hH]; exact post.noPanic hf x hx
        defined := fun hr => post.defined (hr2 hr)
        rangeKept := fun hr => post.rangeKept (hr2 hr)
        contents := fun hr => by
          rw [hcont hr, List.cons_append, post.contents (hr2 hr)]
          exact congrArg _ (queueContents_congr N vm2 _ rfl rfl rfl) }

/-- Termination of the loop: from a state with valid indices the loop ends, by
leaving the loop or by a fault, within as many iterations as there are numbers
in the queue. -/
theorem sigCheckLoop_terminates (N : Int) (fuel : Nat) :
    ∀ (vm : ScmVM) (tp : TailPtr) (acc : List Int),
      inRange N vm → queueCount N vm ≤ fuel →
      ∃ e, sigCheckLoop N fuel vm tp acc = some e := by
  induction fuel with
  | zero =>
    intro vm tp acc hr hc
    have h : vm.sigQueueHead = vm.sigQueueTail :=
      (queueCount_eq_zero_iff N vm hr).mp (Nat.le_zero.mp hc)
    exact ⟨_, sigCheckLoop_done N 0 vm tp acc h⟩
  | succ fuel ih =>
    intro vm tp acc hr hc
    by_cases h : vm.sigQueueHead = vm.sigQueueTail
    · exact ⟨_, sigCheckLoop_done N _ vm tp acc h⟩
    rw [sigCheckLoop_succ N fuel vm tp acc h hr.1]
    have hr2 := dequeue_inRange N vm hr
    have hc2 : queueCount N (dequeue N vm).2 ≤ fuel := by
      have := dequeue_count N vm hr h
      omega
    cases hsc : scanHandlers (dequeue N vm).1 (dequeue N vm).2.sigHandlers with
    | assertFailed => exact ⟨_, rfl⟩
    | unmatched => exact ih _ _ _ hr2 hc2
    | matched hd =>
      simp only
      rw [appendHandler_eq]
      apply ih
      · exact (inRange_congr N (dequeue N vm).2 _ rfl rfl).mpr hr2
      · exact le_of_eq_of_le (queueCount_congr N (dequeue N vm).2 _ rfl rfl) hc2

/-! ## The pending list -/

theorem pendingAfter_null (hs : List ScmObj) (p : ScmObj) :
    (pendingAfter hs p TailPtr.null).1 = p := by
  have hf : ∀ (hs : List ScmObj) (c : ScmObj),
      (pendingAfter hs p (TailPtr.lastOfFresh c)).1 = p := by
    intro hs
    induction hs with
    | nil => intro c; rfl
    | cons h hs ih => intro c; exact ih _
  cases hs with
  | nil => rfl
  | cons h hs => exact hf hs _

theorem setLastCdr_pair (x a d : ScmObj) :
    ∃ d1, setLastCdr x (ScmObj.pair a d) = ScmObj.pair a d1 := by
  cases d <;> simp [setLastCdr]

theorem listOf_setLastCdr (h : ScmObj) (d : ScmObj) :
    ∀ (a : ScmObj), listOf (setLastCdr (ScmObj.pair h ScmObj.nil) (ScmObj.pair a d)) =
      listOf (ScmObj.pair a d) ++ [h] := by
  induction d with
  | nil => intro a; simp [setLastCdr, listOf]
  | sigset s => intro a; simp [setLastCdr, listOf]
  | other n => intro a; simp [setLastCdr, listOf]
  | pair b c _ ihc =>
    intro a
    rw [setLastCdr]
    simp only [listOf]
    rw [ihc b]
    simp [listOf]

theorem ofList_setLastCdr (h : ScmObj) (P : List ScmObj) :
    ∀ (a : ScmObj), setLastCdr (ScmObj.pair h ScmObj.nil) (ofList (a :: P)) =
      ofList (a :: P ++ [h]) := by
  induction P with
  | nil => intro a; simp [setLastCdr, ofList]
  | cons b P ih =>
    intro a
    have := ih b
    simp only [ofList, List.cons_append] at this ⊢
    rw [setLastCdr, this]

theorem listOf_ofList (P : List ScmObj) : listOf (ofList P) = P := by
  induction P with
  | nil => rfl
  | cons a P ih => simp [ofList, listOf, ih]

/-- With `tail` at the last pair of the pending list, the handler values are
added at the end of the list, in order. -/
theorem pendingAfter_lastOfPending_listOf (hs : List ScmObj) :
    ∀ (a d : ScmObj),
      listOf (pendingAfter hs (ScmObj.pair a d) TailPtr.lastOfPending).1 =
        listOf (ScmObj.pair a d) ++ hs := by
  induction hs with
  | nil => intro a d; simp [pendingAfter]
  | cons h hs ih =>
    intro a d
    obtain ⟨d1, hd1⟩ := setLastCdr_pair (ScmObj.pair h ScmObj.nil) a d
    rw [pendingAfter, hd1, ih a d1, ← hd1, listOf_setLastCdr]
    simp

theorem pendingAfter_lastOfPending_ofList (hs : List ScmObj) :
    ∀ (a : ScmObj) (P : List ScmObj),
      (pendingAfter hs (ofList (a :: P)) TailPtr.lastOfPending).1 = ofList (a :: P ++ hs) := by
  induction hs with
  | nil => intro a P; simp [pendingAfter]
  | cons h hs ih =>
    intro a P
    rw [pendingAfter, ofList_setLastCdr]
    have := ih a (P ++ [h])
    simp only [List.cons_append, List.append_assoc, List.singleton_append] at this ⊢
    exact this

/-! ## The scan of the registry -/

theorem sigismember_ne_zero (set : sigset_t) (s : Int) :
    sigismember set s ≠ 0 ↔ s ∈ set.members := by
  unfold sigismember; split_ifs with h <;> simp [h]

/-- On a well-formed registry the scan finds the first matching entry. -/
theorem scanHandlers_registryObj (entries : List (sigset_t × ScmObj)) (s : Int) :
    scanHandlers s (registryObj entries) =
      match firstMatch entries s with
      | some h => Scan.matched h
      | none => Scan.unmatched := by
  induction entries with
  | nil => rfl
  | cons e es ih =>
    simp only [registryObj, scanHandlers, firstMatch, List.find?_cons]
    by_cases hm : s ∈ e.1.members
    · simp [hm, (sigismember_ne_zero e.1 s).mpr hm]
    · have : ¬ sigismember e.1 s ≠ 0 := fun h => hm ((sigismember_ne_zero e.1 s).mp h)
      simp only [hm, decide_False, this, if_false]
      rw [ih]; rfl

theorem handlerFor_registryObj (entries : List (sigset_t × ScmObj)) (s : Int) :
    handlerFor (registryObj entries) s = firstMatch entries s := by
  unfold handlerFor
  rw [scanHandlers_registryObj]
  cases firstMatch entries s <;> rfl

theorem scanHandlers_registryObj_ne (entries : List (sigset_t × ScmObj)) (s : Int) :
    scanHandlers s (registryObj entries) ≠ Scan.assertFailed := by
  rw [scanHandlers_registryObj]
  cases firstMatch entries s <;> simp

/-! ## `Scm_SigCheck` as a whole -/

theorem initTail_nil : initTail ScmObj.nil = .ok TailPtr.null := by
  simp [initTail]

theorem initTail_pair (a d : ScmObj) :
    initTail (ScmObj.pair a d) = .ok TailPtr.lastOfPending := by
  simp [initTail, Scm_LastPair]

theorem initTail_error (p : ScmObj) (f : Fault) (h : initTail p = .error f) :
    f = Fault.error := by
  cases p <;> simp [initTail, Scm_LastPair] at h <;> exact h.symm

theorem initTail_ok_cases (p : ScmObj) (tp : TailPtr) (h : initTail p = .ok tp) :
    (p = ScmObj.nil ∧ tp = TailPtr.null) ∨
      (∃ a d, p = ScmObj.pair a d ∧ tp = TailPtr.lastOfPending) := by
  cases p with
  | nil => left; rw [initTail_nil] at h; cases h; exact ⟨rfl, rfl⟩
  | pair a d => right; rw [initTail_pair] at h; cases h; exact ⟨a, d, rfl, rfl⟩
  | sigset s => simp [initTail, Scm_LastPair] at h
  | other n => simp [initTail, Scm_LastPair] at h

/-- Partial correctness of `Scm_SigCheck`: every exit satisfies `SigCheckPost`. -/
theorem Scm_SigCheck_post (N : Int) (fuel : Nat) (vm : ScmVM) (e : Exit)
    (h : Scm_SigCheck N fuel vm = some e) : SigCheckPost N vm e := by
  unfold Scm_SigCheck sigCheckBody at h
  simp only at h
  cases hit : initTail vm.sigPending with
  | error f =>
    rw [hit] at h
    have hf := initTail_error _ _ hit
    subst hf
    simp only [unwinds, if_true, Option.some.injEq] at h
    subst h
    exact {
      queue := rfl, tail := rfl, handlers := rfl, mask := rfl
      head := by simp, overflow := by simp, overflowKept := fun _ => rfl
      pending := fun tp htp => by rw [hit] at htp; cases htp
      error := fun _ _ => ⟨rfl, rfl, rfl, rfl⟩
      errorOnly := fun _ => hit
      panic := by simp, noPanic := by simp, defined := by simp
      rangeKept := fun hr => hr
      contents := fun _ => by
        simp only [List.nil_append]
        exact queueContents_congr N vm _ rfl rfl rfl
      unblocked := fun _ => rfl
      stillBlocked := by simp }
  | ok tp =>
    rw [hit] at h
    simp only at h
    cases hl : sigCheckLoop N fuel
        { vm with blocked := sigprocmask How.SIG_BLOCK vm.sigMask vm.blocked } tp [] with
    | none => rw [hl] at h; simp at h
    | some e1 =>
      rw [hl] at h
      simp only at h
      obtain ⟨d, hd, post⟩ := sigCheckLoop_post N fuel _ tp [] e1 hl
      simp only [List.nil_append] at hd
      have hrg : ∀ (v : ScmVM), v.sigQueueHead = e1.vm.sigQueueHead →
          v.sigQueueTail = e1.vm.sigQueueTail → v.sigQueue = e1.vm.sigQueue →
          inRange N vm → inRange N v ∧ e1.drained ++ queueContents N v = queueContents N vm := by
        intro v h1 h2 h3 hr
        have hr0 : inRange N { vm with
            blocked := sigprocmask How.SIG_BLOCK vm.sigMask vm.blocked } :=
          (inRange_congr N vm _ rfl rfl).mpr hr
        refine ⟨(inRange_congr N e1.vm v h1 h2).mpr (post.rangeKept hr0), ?_⟩
        rw [queueContents_congr N e1.vm v h3 h1 h2, hd, post.contents hr0]
        exact queueContents_congr N vm _ rfl rfl rfl
      have hdef : inRange N vm → e1.fault ≠ some Fault.undefined := fun hr =>
        post.defined ((inRange_congr N vm _ rfl rfl).mpr hr)
      cases hef : e1.fault with
      | none =>
        rw [hef] at h
        simp only [Option.some.injEq] at h
        subst h
        exact {
          queue := post.queue, tail := post.tail, handlers := post.handlers, mask := post.mask
          head := fun _ => post.head hef
          overflow := fun _ => rfl
          overflowKept := fun hne => absurd rfl hne
          pending := fun tp1 htp => by
            rw [hit] at htp; cases htp
            rw [hd]; exact post.pending
          error := fun f hf => by rw [hit] at hf; cases hf
          errorOnly := fun hf => by simp at hf
          panic := fun hf => by simp at hf
          noPanic := fun _ => by rw [hd]; exact post.noPanic (by rw [hef]; simp)
          defined := fun _ => by simp
          rangeKept := fun hr => (hrg _ rfl rfl rfl hr).1
          contents := fun hr => (hrg _ rfl rfl rfl hr).2
          unblocked := fun _ => by
            show sigprocmask How.SIG_UNBLOCK e1.vm.sigMask e1.vm.blocked = _
            rw [post.mask, post.blocked]
          stillBlocked := fun hf => by simp at hf }
      | some f =>
        have hne : f ≠ Fault.error := fun hfe => post.noError (by rw [hef, hfe])
        have he1 : e = e1 := by
          rw [hef] at h
          cases f
          · exact absurd rfl hne
          · simp only [unwinds, Bool.false_eq_true, if_false, Option.some.injEq] at h
            exact h.symm
          · simp only [unwinds, Bool.false_eq_true, if_false, Option.some.injEq] at h
            exact h.symm
        subst he1
        exact {
          queue := post.queue, tail := post.tail, handlers := post.handlers, mask := post.mask
          head := fun hf => post.head hf
          overflow := fun hf => by rw [hef] at hf; cases hf
          overflowKept := fun _ => post.overflow
          pending := fun tp1 htp => by
            rw [hit] at htp; cases htp
            rw [hd]; exact post.pending
          error := fun f hf => by rw [hit] at hf; cases hf
          errorOnly := fun hf => absurd hf post.noError
          panic := fun hf => by rw [hd]; exact post.panic hf
          noPanic := fun hf => by rw [hd]; exact post.noPanic hf
          defined := hdef
          rangeKept := fun hr => (hrg _ rfl rfl rfl hr).1
          contents := fun hr => (hrg _ rfl rfl rfl hr).2
          unblocked := fun hf => by
            rcases hf with hf | hf
            · rw [hef] at hf; cases hf
            · exact absurd hf post.noError
          stillBlocked := fun _ => post.blocked }

/-- Termination of `Scm_SigCheck`: from a state with valid indices the call ends
within as many iterations of the loop as there are numbers in the queue. -/
theorem Scm_SigCheck_terminates (N : Int) (fuel : Nat) (vm : ScmVM)
    (hr : inRange N vm) (hc : queueCount N vm ≤ fuel) :
    ∃ e, Scm_SigCheck N fuel vm = some e := by
  unfold Scm_SigCheck sigCheckBody
  simp only
  cases hit : initTail vm.sigPending with
  | error f =>
    simp only
    cases unwinds f <;> exact ⟨_, rfl⟩
  | ok tp =>
    simp only
    obtain ⟨e1, he1⟩ := sigCheckLoop_terminates N fuel
      { vm with blocked := sigprocmask How.SIG_BLOCK vm.sigMask vm.blocked } tp []
      ((inRange_congr N vm _ rfl rfl).mpr hr)
      (le_of_eq_of_le (queueCount_congr N vm _ rfl rfl) hc)
    rw [he1]
    simp only
    cases hef : e1.fault with
    | none => exact ⟨_, rfl⟩
    | some f =>
      simp only
      cases unwinds f <;> exact ⟨_, rfl⟩

theorem queueContents_of_exit (N : Int) (vm : ScmVM) (e : Exit) (post : SigCheckPost N vm e)
    (hr : inRange N vm) (hf : e.fault = none) : e.drained = queueContents N vm := by
  have h1 := post.contents hr
  have h2 : queueContents N e.vm = [] :=
    queueContents_empty N e.vm ((post.head hf).trans post.tail.symm)
  rw [h2, List.append_nil] at h1
  exact h1

/-- Total correctness of `Scm_SigCheck` on a state with valid indices, a
well-formed registry and a pending object that is the empty list or a pair: the
call returns, it has read the content of the queue, and the handler values of
the first matches have gone through `appendHandler` in that order. -/
theorem Scm_SigCheck_wellFormed (N : Int) (fuel : Nat) (vm : ScmVM)
    (entries : List (sigset_t × ScmObj)) (tp : TailPtr)
    (hr : inRange N vm) (hc : queueCount N vm ≤ fuel)
    (hreg : vm.sigHandlers = registryObj entries)
    (hit : initTail vm.sigPending = .ok tp) :
    ∃ e, Scm_SigCheck N fuel vm = some e ∧ SigCheckPost N vm e ∧ e.fault = none ∧
      e.drained = queueContents N vm ∧
      (e.vm.sigPending, e.tail) =
        pendingAfter ((queueContents N vm).filterMap (firstMatch entries)) vm.sigPending tp := by
  obtain ⟨e, he⟩ := Scm_SigCheck_terminates N fuel vm hr hc
  have post := Scm_SigCheck_post N fuel vm e he
  have hf : e.fault = none := by
    cases hef : e.fault with
    | none => rfl
    | some f =>
      exfalso
      cases f with
      | error => have := post.errorOnly hef; rw [hit] at this; cases this
      | panic =>
        obtain ⟨s, _, hs⟩ := post.panic hef
        rw [hreg] at hs
        exact scanHandlers_registryObj_ne entries s hs
      | undefined => exact post.defined hr hef
  have hd := queueContents_of_exit N vm e post hr hf
  refine ⟨e, he, post, hf, hd, ?_⟩
  rw [post.pending tp hit, hd, hreg]
  congr 2
  funext s
  exact handlerFor_registryObj entries s

theorem initTail_ofList_nil : initTail (ofList []) = .ok TailPtr.null := initTail_nil

theorem initTail_ofList_cons (a : ScmObj) (P : List ScmObj) :
    initTail (ofList (a :: P)) = .ok TailPtr.lastOfPending := initTail_pair a (ofList P)

/-- The pending list after `Scm_SigCheck`, for a proper pending list `P` and a
well-formed registry: unchanged if `P` is empty, otherwise `P` followed by the
handler values of the first matches. -/
theorem Scm_SigCheck_pending (N : Int) (fuel : Nat) (vm : ScmVM)
    (entries : List (sigset_t × ScmObj)) (P : List ScmObj)
    (hr : inRange N vm) (hc : queueCount N vm ≤ fuel)
    (hreg : vm.sigHandlers = registryObj entries)
    (hp : vm.sigPending = ofList P) :
    ∃ e, Scm_SigCheck N fuel vm = some e ∧ SigCheckPost N vm e ∧ e.fault = none ∧
      e.drained = queueContents N vm ∧
      e.vm.sigPending =
        ofList (if P = [] then []
          else P ++ (queueContents N vm).filterMap (firstMatch entries)) := by
  cases P with
  | nil =>
    obtain ⟨e, he, post, hf, hd, hpe⟩ := Scm_SigCheck_wellFormed N fuel vm entries
      TailPtr.null hr hc hreg (by rw [hp]; rfl)
    refine ⟨e, he, post, hf, hd, ?_⟩
    have := congrArg Prod.fst hpe
    simp only [pendingAfter_null] at this
    rw [this, hp]; rfl
  | cons a P =>
    obtain ⟨e, he, post, hf, hd, hpe⟩ := Scm_SigCheck_wellFormed N fuel vm entries
      TailPtr.lastOfPending hr hc hreg (by rw [hp]; rfl)
    refine ⟨e, he, post, hf, hd, ?_⟩
    have := congrArg Prod.fst hpe
    simp only [hp, pendingAfter_lastOfPending_ofList] at this
    rw [this]; simp

/-! ## The claims -/

/-- C1 (evaluation at the failing input): with the registrations
`[({INT}, H1), ({INT, TERM}, H2)]`, the queue `INT, TERM, INT` and an empty pending
list, `Scm_SigCheck` returns normally having read `INT, TERM, INT`, and
`vm->sigPending` is still the empty list: the cells `[H1, H2, H1]` hang from the
local `tail` only.  With the pending list `[H2]` the same call leaves
`[H2, H1, H2, H1]`. -/
theorem C1_empty_pending_loses_handlers :
    (handleThenCheck 32 3 [SIGINT, SIGTERM, SIGINT] (emptyVM 0 ScmObj.nil)).map
        (fun e => (e.fault, e.drained)) = some (none, [SIGINT, SIGTERM, SIGINT]) ∧
    (handleThenCheck 32 3 [SIGINT, SIGTERM, SIGINT] (emptyVM 0 ScmObj.nil)).map
        (fun e => e.vm.sigPending) = some ScmObj.nil ∧
    (handleThenCheck 32 3 [SIGINT, SIGTERM, SIGINT] (emptyVM 0 ScmObj.nil)).map
        (fun e => e.tail) = some (TailPtr.lastOfFresh (ofList [H1, H2, H1])) ∧
    (handleThenCheck 32 3 [SIGINT, SIGTERM, SIGINT] (emptyVM 0 (ofList [H2]))).map
        (fun e => e.vm.sigPending) = some (ofList [H2, H1, H2, H1]) := by
  refine ⟨?_, ?_, ?_, ?_⟩ <;> decide!

/-- C2 (counterexample): from the fresh queue of 32 slots, 32 calls of
`sig_handle` with the numbers 1, .., 32 leave head = tail = 0 with overflow
clear, and the drain that follows reads no number at all. -/
theorem C2_counterexample_full_lap :
    (oneTo 32).length ≤ 32 ∧
    (sig_handle_all 32 (oneTo 32) (emptyVM 0 ScmObj.nil)).toOption.map
        (fun vm => (vm.sigQueueHead, vm.sigQueueTail, vm.sigOverflow)) = some (0, 0, 0) ∧
    (handleThenCheck 32 32 (oneTo 32) (emptyVM 0 ScmObj.nil)).map
        (fun e => (e.fault, e.drained)) = some (none, []) ∧
    ¬ ((handleThenCheck 32 32 (oneTo 32) (emptyVM 0 ScmObj.nil)).map
        (fun e => e.drained) = some (oneTo 32)) := by
  refine ⟨?_, ?_, ?_, ?_⟩ <;> decide!

/-- C2 (amended): for every sequence of fewer than `N` signal numbers, starting
from the fresh queue (head = tail = 0, overflow clear), the calls of `sig_handle`
followed by one `Scm_SigCheck` make the loop read exactly those numbers in the
order enqueued, and afterwards head = tail and overflow is clear. -/
theorem C2_enqueue_then_drain (N : Int) (fuel : Nat) (sigs : List Int) (vm : ScmVM)
    (entries : List (sigset_t × ScmObj)) (P : List ScmObj)
    (hh : vm.sigQueueHead = 0) (ht : vm.sigQueueTail = 0) (hov : vm.sigOverflow = 0)
    (hk : (sigs.length : Int) < N) (hfuel : sigs.length ≤ fuel)
    (hreg : vm.sigHandlers = registryObj entries) (hp : vm.sigPending = ofList P) :
    ∃ e, handleThenCheck N fuel sigs vm = some e ∧ e.fault = none ∧ e.drained = sigs ∧
      e.vm.sigQueueHead = e.vm.sigQueueTail ∧ e.vm.sigOverflow = 0 := by
  have hN : 0 < N := by omega
  have hr : inRange N vm := by
    unfold inRange inBounds; rw [hh, ht]; omega
  have hc0 : queueCount N vm = 0 := (queueCount_eq_zero_iff N vm hr).mpr (hh.trans ht.symm)
  obtain ⟨vm1, hk1, hr1, _, _, hc1, hq1, hp1, hreg1, _, _⟩ :=
    sig_handle_all_enqueue N sigs vm hr hov (by rw [hc0]; simpa using hk)
  obtain ⟨e, he, post, hf, hd, _⟩ := Scm_SigCheck_pending N fuel vm1 entries P hr1
    (by rw [hc1, hc0]; simpa using hfuel) (hreg1.trans hreg) (hp1.trans hp)
  refine ⟨e, ?_, hf, ?_, (post.head hf).trans post.tail.symm, post.overflow hf⟩
  · unfold handleThenCheck; rw [hk1]; exact he
  · rw [hd, hq1, queueContents_empty N vm (hh.trans ht.symm), List.nil_append]

/-- C2 (witness): the three numbers INT, TERM, INT on the fresh queue of 32
slots. -/
theorem C2_enqueue_then_drain_witness :
    ∃ e, handleThenCheck 32 3 [SIGINT, SIGTERM, SIGINT] (emptyVM 0 ScmObj.nil) = some e ∧
      e.fault = none ∧ e.drained = [SIGINT, SIGTERM, SIGINT] ∧
      e.vm.sigQueueHead = e.vm.sigQueueTail ∧ e.vm.sigOverflow = 0 :=
  C2_enqueue_then_drain 32 3 [SIGINT, SIGTERM, SIGINT] (emptyVM 0 ScmObj.nil)
    exampleEntries [] rfl rfl rfl (by decide) (by decide) rfl rfl

theorem sig_handle_all_of_overflow (N : Int) (sigs : List Int) (vm : ScmVM)
    (h : vm.sigOverflow ≠ 0) : sig_handle_all N sigs vm = .ok vm := by
  induction sigs with
  | nil => rfl
  | cons s rest ih => simp only [sig_handle_all, sig_handle_of_overflow N s vm h, ih]

/-- A call of `Scm_SigCheck` on an empty queue reads no number. -/
theorem Scm_SigCheck_of_empty (N : Int) (fuel : Nat) (vm : ScmVM)
    (h : vm.sigQueueHead = vm.sigQueueTail) :
    ∃ e, Scm_SigCheck N fuel vm = some e ∧ e.drained = [] := by
  unfold Scm_SigCheck sigCheckBody
  simp only
  cases hit : initTail vm.sigPending with
  | error f =>
    simp only
    cases unwinds f <;> exact ⟨_, rfl, rfl⟩
  | ok tp =>
    simp only
    rw [sigCheckLoop_done N fuel
      { vm with blocked := sigprocmask How.SIG_BLOCK vm.sigMask vm.blocked } tp [] h]
    exact ⟨_, rfl, rfl⟩

/-- C3 (counterexample): with 32 slots, from the empty queue at slot 1 the 32nd
call of `sig_handle` already sets overflow; from the empty queue at slot 0 the
33rd call leaves overflow clear, and the drain that follows reads the number 33
that was passed to it. -/
theorem C3_counterexample_overflow_point :
    (sig_handle_all 32 (oneTo 32) (emptyVM 1 ScmObj.nil)).toOption.map
        (fun vm => vm.sigOverflow) = some 1 ∧
    (sig_handle_all 32 (oneTo 33) (emptyVM 0 ScmObj.nil)).toOption.map
        (fun vm => vm.sigOverflow) = some 0 ∧
    (handleThenCheck 32 32 (oneTo 33) (emptyVM 0 ScmObj.nil)).map
        (fun e => e.drained) = some [33] := by
  refine ⟨?_, ?_, ?_⟩ <;> decide!

/-- C3 (amended): from an empty queue with head and tail at a slot `h`,
`0 < h < N`, and overflow clear, `N - 1` calls of `sig_handle` leave overflow
clear; one further call sets overflow; every later call before the next dispatch
changes nothing; and the drain that follows reads no number at all, so neither
the number passed to the overflowing call nor any later one is returned. -/
theorem C3_overflow_after_capacity (N : Int) (vm : ScmVM) (sigs later : List Int) (s : Int)
    (hh : 0 < vm.sigQueueHead) (hN : vm.sigQueueHead < N)
    (hem : vm.sigQueueTail = vm.sigQueueHead) (hov : vm.sigOverflow = 0)
    (hlen : (sigs.length : Int) = N - 1) :
    ∃ vm1 vm2, sig_handle_all N sigs vm = .ok vm1 ∧ vm1.sigOverflow = 0 ∧
      sig_handle N s vm1 = .ok vm2 ∧ vm2.sigOverflow ≠ 0 ∧
      sig_handle_all N later vm2 = .ok vm2 ∧
      ∀ fuel, ∃ e, Scm_SigCheck N fuel vm2 = some e ∧ e.drained = [] := by
  have hr : inRange N vm := by
    unfold inRange inBounds; rw [hem]; omega
  have hc0 : queueCount N vm = 0 := (queueCount_eq_zero_iff N vm hr).mpr hem.symm
  obtain ⟨vm1, hk1, hr1, ho1, hh1, hc1, _⟩ :=
    sig_handle_all_enqueue N sigs vm hr hov (by rw [hc0]; push_cast; omega)
  have e1 := queueCount_eq N vm1 hr1
  obtain ⟨vm2, hk2, _, hh2, ht2, ho2, _⟩ := sig_handle_ok N s vm1 ho1 hr1.2
  obtain ⟨⟨a1, a2⟩, a3, a4⟩ := hr1
  rw [hc1, hc0, hh1] at e1
  push_cast at e1
  have hlt : ¬ vm1.sigQueueHead ≤ vm1.sigQueueTail := by
    rw [hh1]; intro hle; rw [if_pos hle] at e1; omega
  have hlt0 : ¬ vm.sigQueueHead ≤ vm1.sigQueueTail := by rw [← hh1]; exact hlt
  rw [if_neg hlt0] at e1
  have ho3 : vm2.sigOverflow = 1 := by
    rw [ho2, if_neg hlt, if_pos (by rw [hh1]; omega)]
  have ho4 : vm2.sigOverflow ≠ 0 := by rw [ho3]; decide
  have hem2 : vm2.sigQueueHead = vm2.sigQueueTail := by
    rw [hh2, ht2, if_neg hlt, hh1]; omega
  exact ⟨vm1, vm2, hk1, ho1, hk2, ho4, sig_handle_all_of_overflow N later vm2 ho4,
    fun fuel => Scm_SigCheck_of_empty N fuel vm2 hem2⟩

/-- C3 (witness): 32 slots, the empty queue at slot 1, the numbers 1, .., 31,
then 32, then 33 and 34. -/
theorem C3_overflow_after_capacity_witness :
    ∃ vm1 vm2, sig_handle_all 32 (oneTo 31) (emptyVM 1 ScmObj.nil) = .ok vm1 ∧
      vm1.sigOverflow = 0 ∧
      sig_handle 32 32 vm1 = .ok vm2 ∧ vm2.sigOverflow ≠ 0 ∧
      sig_handle_all 32 [33, 34] vm2 = .ok vm2 ∧
      ∀ fuel, ∃ e, Scm_SigCheck 32 fuel vm2 = some e ∧ e.drained = [] :=
  C3_overflow_after_capacity 32 (emptyVM 1 ScmObj.nil) (oneTo 31) [33, 34] 32
    (by decide) (by decide) rfl rfl (by decide)

/-- Apart from the wrap of the tail index onto a head index at slot 0,
`sig_handle` does what the specification says of enqueue. -/
theorem sig_handle_eq_enqueue_spec (N s : Int) (vm : ScmVM) (hr : inRange N vm)
    (hov : vm.sigOverflow = 0)
    (hne : ¬ (vm.sigQueueHead = 0 ∧ vm.sigQueueTail = N - 1)) :
    sig_handle N s vm = .ok (enqueue_spec N s vm) := by
  obtain ⟨⟨h1, h2⟩, h3, h4⟩ := hr
  have hw := emod_wrap N (vm.sigQueueTail + 1) (by omega) (by omega)
  unfold sig_handle enqueue_spec
  have hb : inBounds N vm.sigQueueTail := ⟨h3, h4⟩
  simp only [hov, ne_eq, not_true_eq_false, if_false, hb, hw]
  by_cases hle : vm.sigQueueHead ≤ vm.sigQueueTail
  · simp only [hle, if_true]
    by_cases hwr : vm.sigQueueTail + 1 ≥ N
    · have h5 : ¬ vm.sigQueueTail + 1 < N := by omega
      have h6 : ¬ (0 = vm.sigQueueHead) := by omega
      have h7 : vm.sigQueueTail + 1 - N = 0 := by omega
      simp only [hwr, h5, if_true, if_false, h7, h6, hov]
    · have h5 : vm.sigQueueTail + 1 < N := by omega
      have h6 : ¬ (vm.sigQueueTail + 1 = vm.sigQueueHead) := by omega
      simp only [hwr, h5, if_true, if_false, h6]
  · have h5 : vm.sigQueueTail + 1 < N := by omega
    simp only [hle, if_false, h5, if_true]
    by_cases hfull : vm.sigQueueTail + 1 ≥ vm.sigQueueHead
    · have h6 : vm.sigQueueTail + 1 = vm.sigQueueHead := by omega
      simp only [hfull, if_true, h6, zero_add, ge_iff_le, le_refl]
    · have h6 : ¬ (vm.sigQueueTail + 1 = vm.sigQueueHead) := by omega
      simp only [hfull, if_false, h6]

/-- C4 (evaluation at the failing input): with 32 slots, head at slot 0, tail at
slot 31 and overflow clear, `sig_handle` brings the tail index round to slot 0,
where the head index is, and leaves overflow clear, where the enqueue of the
specification sets it.  With head at slot 1 and tail at slot 0, `sig_handle`
does set overflow when the tail index reaches the head index. -/
theorem C4_wrap_onto_head_keeps_overflow_clear :
    (sig_handle 32 SIGINT lastSlotVM).toOption.map
        (fun vm => (vm.sigQueueHead, vm.sigQueueTail, vm.sigOverflow)) = some (0, 0, 0) ∧
    (enqueue_spec 32 SIGINT lastSlotVM).sigQueueHead = 0 ∧
    (enqueue_spec 32 SIGINT lastSlotVM).sigQueueTail = 0 ∧
    (enqueue_spec 32 SIGINT lastSlotVM).sigOverflow = 1 ∧
    (sig_handle 32 SIGINT { lastSlotVM with sigQueueHead := 1, sigQueueTail := 0 }).toOption.map
        (fun vm => (vm.sigQueueHead, vm.sigQueueTail, vm.sigOverflow)) = some (1, 1, 1) := by
  refine ⟨?_, ?_, ?_, ?_, ?_⟩ <;> decide!

/-- A handler value found by the scan belongs to the earliest entry of the
registry whose set contains the signal number. -/
theorem isFirstMatch_of_scanHandlers (s : Int) (h : ScmObj) :
    ∀ (reg : ScmObj), scanHandlers s reg = Scan.matched h → IsFirstMatch reg s h := by
  intro reg
  induction reg with
  | nil => intro hs; simp [scanHandlers] at hs
  | sigset set => intro hs; simp [scanHandlers] at hs
  | other n => intro hs; simp [scanHandlers] at hs
  | pair a d _ ihd =>
    intro hs
    cases a with
    | nil => simp [scanHandlers] at hs
    | sigset set => simp [scanHandlers] at hs
    | other n => simp [scanHandlers] at hs
    | pair x hd =>
      cases x with
      | nil => simp [scanHandlers] at hs
      | other n => simp [scanHandlers] at hs
      | pair y z => simp [scanHandlers] at hs
      | sigset set =>
        simp only [scanHandlers] at hs
        by_cases hm : s ∈ set.members
        · rw [if_pos ((sigismember_ne_zero set s).mpr hm)] at hs
          cases hs
          exact ⟨[], set, listOf d, rfl, hm, by simp⟩
        · rw [if_neg (fun hne => hm ((sigismember_ne_zero set s).mp hne))] at hs
          obtain ⟨before, set1, after, hl, hm1, hb⟩ := ihd hs
          refine ⟨ScmObj.pair (ScmObj.sigset set) hd :: before, set1, after, ?_, hm1, ?_⟩
          · simp [listOf, hl]
          · intro e he
            rcases List.mem_cons.mp he with rfl | he
            · exact ⟨set, hd, rfl, hm⟩
            · exact hb e he

theorem hasMatch_of_isFirstMatch (reg : ScmObj) (s : Int) (h : ScmObj)
    (hm : IsFirstMatch reg s h) : hasMatch reg s = true := by
  obtain ⟨before, set, after, hl, hs, _⟩ := hm
  unfold hasMatch
  rw [hl, List.any_eq_true]
  exact ⟨ScmObj.pair (ScmObj.sigset set) h, by simp, by simpa using hs⟩

theorem isFirstMatch_of_handlerFor (reg : ScmObj) (s : Int) (h : ScmObj)
    (hs : handlerFor reg s = some h) : IsFirstMatch reg s h := by
  apply isFirstMatch_of_scanHandlers
  unfold handlerFor at hs
  cases hsc : scanHandlers s reg with
  | matched h1 => rw [hsc] at hs; simp only [Option.some.injEq] at hs; rw [hs]
  | unmatched => rw [hsc] at hs; cases hs
  | assertFailed => rw [hsc] at hs; cases hs

/-- The handler values found for a list of signal numbers correspond, one to
one and in order, to the numbers for which the scan finds a handler. -/
theorem forall₂_isFirstMatch (reg : ScmObj) (d : List Int) :
    List.Forall₂ (IsFirstMatch reg)
      (d.filter (fun s => (handlerFor reg s).isSome)) (d.filterMap (handlerFor reg)) := by
  induction d with
  | nil => exact List.Forall₂.nil
  | cons s d ih =>
    cases hs : handlerFor reg s with
    | none => simpa [List.filter_cons, List.filterMap_cons, hs] using ih
    | some h =>
      simp only [List.filter_cons, List.filterMap_cons, hs, Option.isSome_some, if_true]
      exact List.Forall₂.cons (isFirstMatch_of_handlerFor reg s h hs) ih

theorem length_filterMap_handlerFor_le (reg : ScmObj) (d : List Int) :
    (d.filterMap (handlerFor reg)).length ≤ d.countP (hasMatch reg) := by
  induction d with
  | nil => simp
  | cons s d ih =>
    cases hs : handlerFor reg s with
    | none =>
      simp only [List.filterMap_cons, hs, List.countP_cons]
      omega
    | some h =>
      have hm := hasMatch_of_isFirstMatch reg s h (isFirstMatch_of_handlerFor reg s h hs)
      simp only [List.filterMap_cons, hs, List.countP_cons, hm, if_true, List.length_cons]
      omega

/-- C5: for every registry, every queue with valid indices and every pending
object, `Scm_SigCheck` ends, and the elements it has added at the end of the
pending list correspond one to one, in order, to distinct occurrences among the
signal numbers it read from the queue; each added value is the handler of the
earliest registry entry whose set contains that number; so the list grows by no
more than the number of read occurrences that have a matching entry. -/
theorem C5_at_most_one_first_match_per_occurrence (N : Int) (fuel : Nat) (vm : ScmVM)
    (hr : inRange N vm) (hc : queueCount N vm ≤ fuel) :
    ∃ e, Scm_SigCheck N fuel vm = some e ∧ e.drained <+: queueContents N vm ∧
      ∃ (added : List ScmObj) (occurrences : List Int),
        listOf e.vm.sigPending = listOf vm.sigPending ++ added ∧
        occurrences.Sublist e.drained ∧
        List.Forall₂ (IsFirstMatch vm.sigHandlers) occurrences added ∧
        added.length ≤ e.drained.countP (hasMatch vm.sigHandlers) := by
  obtain ⟨e, he⟩ := Scm_SigCheck_terminates N fuel vm hr hc
  have post := Scm_SigCheck_post N fuel vm e he
  refine ⟨e, he, ⟨_, post.contents hr⟩, ?_⟩
  cases hit : initTail vm.sigPending with
  | error f =>
    obtain ⟨_, hd, hp, _⟩ := post.error f hit
    exact ⟨[], [], by rw [hp]; simp, by simp, List.Forall₂.nil, by simp⟩
  | ok tp =>
    have hp := congrArg Prod.fst (post.pending tp hit)
    simp only at hp
    rcases initTail_ok_cases _ _ hit with ⟨_, rfl⟩ | ⟨a, d, hpd, rfl⟩
    · rw [pendingAfter_null] at hp
      exact ⟨[], [], by rw [hp]; simp, by simp, List.Forall₂.nil, by simp⟩
    · refine ⟨e.drained.filterMap (handlerFor vm.sigHandlers),
        e.drained.filter (fun s => (handlerFor vm.sigHandlers s).isSome), ?_,
        List.filter_sublist _, forall₂_isFirstMatch _ _,
        length_filterMap_handlerFor_le _ _⟩
      rw [hp, hpd, pendingAfter_lastOfPending_listOf]

/-- C5 (witness): the queue `INT, TERM, INT` in 32 slots, with the pending list
`[H2]`. -/
theorem C5_at_most_one_first_match_per_occurrence_witness :
    ∃ e, Scm_SigCheck 32 3 (queuedVM [SIGINT, SIGTERM, SIGINT] (ofList [H2]) 0) = some e ∧
      e.drained <+: queueContents 32 (queuedVM [SIGINT, SIGTERM, SIGINT] (ofList [H2]) 0) ∧
      ∃ (added : List ScmObj) (occurrences : List Int),
        listOf e.vm.sigPending = listOf (ofList [H2]) ++ added ∧
        occurrences.Sublist e.drained ∧
        List.Forall₂ (IsFirstMatch (registryObj exampleEntries)) occurrences added ∧
        added.length ≤ e.drained.countP (hasMatch (registryObj exampleEntries)) :=
  C5_at_most_one_first_match_per_occurrence 32 3
    (queuedVM [SIGINT, SIGTERM, SIGINT] (ofList [H2]) 0) (by decide) (by decide)

/-- C6: for every non-empty pending list `P`, every well-formed registry and
every queue with valid indices, `Scm_SigCheck` returns and leaves the pending
list equal to `P` followed by the first-match handlers of the queued numbers in
FIFO order. -/
theorem C6_new_handlers_follow_pending (N : Int) (fuel : Nat) (vm : ScmVM)
    (entries : List (sigset_t × ScmObj)) (P : List ScmObj)
    (hr : inRange N vm) (hc : queueCount N vm ≤ fuel)
    (hreg : vm.sigHandlers = registryObj entries)
    (hp : vm.sigPending = ofList P) (hP : P ≠ []) :
    ∃ e, Scm_SigCheck N fuel vm = some e ∧ e.fault = none ∧
      e.vm.sigPending = ofList (P ++ (queueContents N vm).filterMap (firstMatch entries)) := by
  obtain ⟨e, he, _, hf, _, hpe⟩ := Scm_SigCheck_pending N fuel vm entries P hr hc hreg hp
  rw [if_neg hP] at hpe
  exact ⟨e, he, hf, hpe⟩

/-- C6 (witness): the queue `INT, TERM, INT` in 32 slots, with the pending list
`[H2]`. -/
theorem C6_new_handlers_follow_pending_witness :
    ∃ e, Scm_SigCheck 32 3 (queuedVM [SIGINT, SIGTERM, SIGINT] (ofList [H2]) 0) = some e ∧
      e.fault = none ∧
      e.vm.sigPending = ofList ([H2] ++
        (queueContents 32 (queuedVM [SIGINT, SIGTERM, SIGINT] (ofList [H2]) 0)).filterMap
          (firstMatch exampleEntries)) :=
  C6_new_handlers_follow_pending 32 3 (queuedVM [SIGINT, SIGTERM, SIGINT] (ofList [H2]) 0)
    exampleEntries [H2] (by decide) (by decide) rfl rfl (by decide)

theorem firstMatch_isSome (entries : List (sigset_t × ScmObj)) (s : Int) :
    (firstMatch entries s).isSome = entries.any (fun e => decide (s ∈ e.1.members)) := by
  unfold firstMatch
  rw [Option.isSome_map', Bool.eq_iff_iff, List.find?_isSome, List.any_eq_true]

theorem filterMap_filter_isSome {α β : Type} (f : α → Option β) (p : α → Bool)
    (hp : ∀ a, p a = (f a).isSome) (l : List α) :
    (l.filter p).filterMap f = l.filterMap f := by
  induction l with
  | nil => rfl
  | cons a l ih =>
    cases hfa : f a with
    | none =>
      have : p a = false := by rw [hp, hfa]; rfl
      simp [List.filter_cons, this, hfa, ih]
    | some b =>
      have : p a = true := by rw [hp, hfa]; rfl
      simp [List.filter_cons, this, hfa, ih]

/-- C7: for every well-formed registry and every pending list, `Scm_SigCheck` on
a queue `q` leaves the same pending list as on the queue that holds `q` without
the numbers contained in no entry set; and if no queued number is contained in an
entry set, the pending list is left as it was. -/
theorem C7_unmatched_numbers_have_no_effect (N : Int) (fuel1 fuel2 : Nat) (vm1 vm2 : ScmVM)
    (entries : List (sigset_t × ScmObj)) (P : List ScmObj)
    (hr1 : inRange N vm1) (hc1 : queueCount N vm1 ≤ fuel1)
    (hr2 : inRange N vm2) (hc2 : queueCount N vm2 ≤ fuel2)
    (hreg1 : vm1.sigHandlers = registryObj entries)
    (hreg2 : vm2.sigHandlers = registryObj entries)
    (hp1 : vm1.sigPending = ofList P) (hp2 : vm2.sigPending = ofList P)
    (hq : queueContents N vm2 = (queueContents N vm1).filter
      (fun s => entries.any (fun e => decide (s ∈ e.1.members)))) :
    ∃ e1 e2, Scm_SigCheck N fuel1 vm1 = some e1 ∧ Scm_SigCheck N fuel2 vm2 = some e2 ∧
      e1.fault = none ∧ e2.fault = none ∧ e1.vm.sigPending = e2.vm.sigPending ∧
      ((∀ s ∈ queueContents N vm1, ∀ e ∈ entries, s ∉ e.1.members) →
        e1.vm.sigPending = vm1.sigPending) := by
  obtain ⟨e1, he1, _, hf1, _, hpe1⟩ :=
    Scm_SigCheck_pending N fuel1 vm1 entries P hr1 hc1 hreg1 hp1
  obtain ⟨e2, he2, _, hf2, _, hpe2⟩ :=
    Scm_SigCheck_pending N fuel2 vm2 entries P hr2 hc2 hreg2 hp2
  have hfm : (queueContents N vm2).filterMap (firstMatch entries) =
      (queueContents N vm1).filterMap (firstMatch entries) := by
    rw [hq]
    exact filterMap_filter_isSome _ _ (fun a => (firstMatch_isSome entries a).symm) _
  refine ⟨e1, e2, he1, he2, hf1, hf2, ?_, ?_⟩
  · rw [hpe1, hpe2, hfm]
  · intro hno
    have hnil : queueContents N vm2 = [] := by
      rw [hq, List.filter_eq_nil_iff]
      intro s hs
      simp only [List.any_eq_true, decide_eq_true_eq, not_exists, not_and]
      exact fun e he => hno s hs e he
    rw [hpe1, hp1, ← hfm, hnil]
    by_cases hP : P = [] <;> simp [hP]

/-- C7 (witness): in 32 slots, the queue `INT, 7, TERM` against the queue
`INT, TERM`; no set of `exampleEntries` contains 7. -/
theorem C7_unmatched_numbers_have_no_effect_witness :
    ∃ e1 e2,
      Scm_SigCheck 32 3 (queuedVM [SIGINT, 7, SIGTERM] (ofList [H2]) 0) = some e1 ∧
      Scm_SigCheck 32 2 (queuedVM [SIGINT, SIGTERM] (ofList [H2]) 0) = some e2 ∧
      e1.fault = none ∧ e2.fault = none ∧ e1.vm.sigPending = e2.vm.sigPending ∧
      ((∀ s ∈ queueContents 32 (queuedVM [SIGINT, 7, SIGTERM] (ofList [H2]) 0),
          ∀ e ∈ exampleEntries, s ∉ e.1.members) →
        e1.vm.sigPending = ofList [H2]) :=
  C7_unmatched_numbers_have_no_effect 32 3 2
    (queuedVM [SIGINT, 7, SIGTERM] (ofList [H2]) 0)
    (queuedVM [SIGINT, SIGTERM] (ofList [H2]) 0)
    exampleEntries [H2] (by decide) (by decide) (by decide) (by decide) rfl rfl rfl rfl
    (by decide)

/-- C8: for every state with valid indices in which `Scm_SigCheck` returns
without a fault, the resulting head index equals the tail index, which is the
tail index the call started with, and overflow is 0, whatever the overflow flag
was before and whatever the registry holds. -/
theorem C8_queue_empty_and_overflow_clear_on_return (N : Int) (fuel : Nat) (vm : ScmVM)
    (e : Exit) (hr : inRange N vm) (he : Scm_SigCheck N fuel vm = some e)
    (hf : e.fault = none) :
    e.vm.sigQueueHead = e.vm.sigQueueTail ∧ e.vm.sigQueueHead = vm.sigQueueTail ∧
      e.vm.sigQueueTail = vm.sigQueueTail ∧ e.vm.sigOverflow = 0 ∧ inRange N e.vm := by
  have post := Scm_SigCheck_post N fuel vm e he
  exact ⟨(post.head hf).trans post.tail.symm, post.head hf, post.tail, post.overflow hf,
    post.rangeKept hr⟩

/-- C8 (witness): 32 slots, the queue `INT, 7, INT` (7 has no match) and the
overflow flag set. -/
theorem C8_queue_empty_and_overflow_clear_on_return_witness :
    inRange 32 overflowVM ∧ Scm_SigCheck 32 3 overflowVM = some overflowExit ∧
    overflowExit.fault = none ∧
    (overflowExit.vm.sigQueueHead = overflowExit.vm.sigQueueTail ∧
      overflowExit.vm.sigQueueHead = overflowVM.sigQueueTail ∧
      overflowExit.vm.sigQueueTail = overflowVM.sigQueueTail ∧
      overflowExit.vm.sigOverflow = 0 ∧ inRange 32 overflowExit.vm) :=
  ⟨by decide, rfl, rfl,
    C8_queue_empty_and_overflow_clear_on_return 32 3 overflowVM overflowExit
      (by decide) rfl rfl⟩

/-- C9: for every queue state in which overflow is set and every signal number,
`sig_handle` returns the state it was called in: head, tail, overflow and every
buffer slot are what they were. -/
theorem C9_sig_handle_noop_when_overflow (N s : Int) (vm : ScmVM)
    (hov : vm.sigOverflow ≠ 0) : sig_handle N s vm = .ok vm :=
  sig_handle_of_overflow N s vm hov

/-- C9 (witness): 32 slots, a queue with the overflow flag set. -/
theorem C9_sig_handle_noop_when_overflow_witness :
    stuckVM.sigOverflow ≠ 0 ∧ sig_handle 32 SIGINT stuckVM = .ok stuckVM :=
  ⟨by decide, C9_sig_handle_noop_when_overflow 32 SIGINT stuckVM (by decide)⟩

theorem pendingAfter_lastOfPending_pair (hs : List ScmObj) :
    ∀ (a d : ScmObj), ∃ d1,
      (pendingAfter hs (ScmObj.pair a d) TailPtr.lastOfPending).1 = ScmObj.pair a d1 := by
  induction hs with
  | nil => intro a d; exact ⟨d, rfl⟩
  | cons h hs ih =>
    intro a d
    obtain ⟨d1, hd1⟩ := setLastCdr_pair (ScmObj.pair h ScmObj.nil) a d
    rw [pendingAfter, hd1]
    exact ih a d1

/-- After a return without a fault the pending object is again the empty list
or a pair. -/
theorem initTail_after_return (N : Int) (vm : ScmVM) (e : Exit) (post : SigCheckPost N vm e)
    (hf : e.fault = none) : ∃ tp, initTail e.vm.sigPending = .ok tp := by
  cases hit : initTail vm.sigPending with
  | error f =>
    have := (post.error f hit).1
    rw [hf] at this; cases this
  | ok tp =>
    have hp := congrArg Prod.fst (post.pending tp hit)
    simp only at hp
    rcases initTail_ok_cases _ _ hit with ⟨hnil, rfl⟩ | ⟨a, d, hpd, rfl⟩
    · rw [pendingAfter_null] at hp
      exact ⟨TailPtr.null, by rw [hp, hnil]; rfl⟩
    · rw [hpd] at hp
      obtain ⟨d1, hd1⟩ := pendingAfter_lastOfPending_pair
        (e.drained.filterMap (handlerFor vm.sigHandlers)) a d
      exact ⟨TailPtr.lastOfPending, by rw [hp, hd1]; rfl⟩

/-- C10: with at least two slots, for every state with valid indices, in
particular one in which overflow is set, a `Scm_SigCheck` that returns without a
fault followed by `sig_handle(s)` leaves overflow clear and the queue non-empty
with the content `[s]`, and the loop of the next `Scm_SigCheck` reads exactly
`[s]`. -/
theorem C10_enqueue_works_after_overflow_drain (N : Int) (fuel : Nat) (vm : ScmVM) (e : Exit)
    (s : Int) (hN : 2 ≤ N) (hr : inRange N vm)
    (he : Scm_SigCheck N fuel vm = some e) (hf : e.fault = none) :
    ∃ vm2, sig_handle N s e.vm = .ok vm2 ∧ vm2.sigOverflow = 0 ∧
      vm2.sigQueueHead ≠ vm2.sigQueueTail ∧ queueContents N vm2 = [s] ∧
      ∀ fuel2, 1 ≤ fuel2 → ∃ e2, Scm_SigCheck N fuel2 vm2 = some e2 ∧ e2.drained = [s] := by
  have post := Scm_SigCheck_post N fuel vm e he
  have hem : e.vm.sigQueueHead = e.vm.sigQueueTail := (post.head hf).trans post.tail.symm
  have hre := post.rangeKept hr
  have hc0 : queueCount N e.vm = 0 := (queueCount_eq_zero_iff N e.vm hre).mpr hem
  obtain ⟨vm2, hk, hr2, ho2, _, hc2, hq2, hp2, _⟩ :=
    sig_handle_enqueue N s e.vm hre (post.overflow hf) (by rw [hc0]; push_cast; omega)
  rw [queueContents_empty N e.vm hem, List.nil_append] at hq2
  rw [hc0] at hc2
  have hne : vm2.sigQueueHead ≠ vm2.sigQueueTail := by
    intro h
    have := (queueCount_eq_zero_iff N vm2 hr2).mpr h
    omega
  refine ⟨vm2, hk, ho2, hne, hq2, ?_⟩
  intro fuel2 hfuel
  obtain ⟨e2, he2⟩ := Scm_SigCheck_terminates N fuel2 vm2 hr2 (by omega)
  have post2 := Scm_SigCheck_post N fuel2 vm2 e2 he2
  refine ⟨e2, he2, ?_⟩
  have hcont := post2.contents hr2
  rw [hq2] at hcont
  cases hef : e2.fault with
  | none =>
    have := queueContents_of_exit N vm2 e2 post2 hr2 hef
    rw [this, hq2]
  | some f =>
    cases f with
    | error =>
      exfalso
      have h1 := post2.errorOnly hef
      obtain ⟨tp, htp⟩ := initTail_after_return N vm e post hf
      rw [hp2, htp] at h1
      cases h1
    | undefined => exact absurd hef (post2.defined hr2)
    | panic =>
      obtain ⟨x, hx, _⟩ := post2.panic hef
      cases hdr : e2.drained with
      | nil => rw [hdr] at hx; cases hx
      | cons y ys =>
        rw [hdr] at hcont
        simp only [List.cons_append, List.cons.injEq, List.append_eq_nil] at hcont
        rw [hcont.1, hcont.2.1]

/-- C10 (witness): 32 slots, head and tail at slot 0 with the overflow flag set,
then `sig_handle(TERM)`. -/
theorem C10_enqueue_works_after_overflow_drain_witness :
    stuckVM.sigOverflow ≠ 0 ∧ Scm_SigCheck 32 0 stuckVM = some stuckExit ∧
    ∃ vm2, sig_handle 32 SIGTERM stuckExit.vm = .ok vm2 ∧ vm2.sigOverflow = 0 ∧
      vm2.sigQueueHead ≠ vm2.sigQueueTail ∧ queueContents 32 vm2 = [SIGTERM] ∧
      ∀ fuel2, 1 ≤ fuel2 →
        ∃ e2, Scm_SigCheck 32 fuel2 vm2 = some e2 ∧ e2.drained = [SIGTERM] :=
  ⟨by decide, rfl,
    C10_enqueue_works_after_overflow_drain 32 0 stuckVM stuckExit SIGTERM
      (by decide) (by decide) rfl rfl⟩

/-! ## Faults and the signal mask -/

theorem not_mem_sigprocmask_unblock (set : sigset_t) (blocked : List Int) (s : Int)
    (hs : s ∈ set.members) : s ∉ sigprocmask How.SIG_UNBLOCK set blocked := by
  unfold sigprocmask
  simp only [List.mem_filter, decide_not, Bool.not_eq_true', decide_eq_false_iff_not,
    not_and, not_not]
  exact fun _ => hs

theorem mem_sigprocmask_block (set : sigset_t) (blocked : List Int) (s : Int)
    (hs : s ∈ set.members) : s ∈ sigprocmask How.SIG_BLOCK set blocked := by
  unfold sigprocmask
  by_cases hb : s ∈ blocked
  · exact List.mem_append_left _ hb
  · exact List.mem_append_right _ (List.mem_filter.mpr ⟨hs, by simpa using hb⟩)

/-- From line 77 to the end of the protected section every signal of
`vm->sigMask` is blocked: the section does not touch the mask. -/
theorem sigCheckBody_blocked (N : Int) (fuel : Nat) (vm : ScmVM) (e0 : Exit)
    (h : sigCheckBody N fuel
      { vm with blocked := sigprocmask How.SIG_BLOCK vm.sigMask vm.blocked } = some e0) :
    e0.vm.sigMask = vm.sigMask ∧
      e0.vm.blocked = sigprocmask How.SIG_BLOCK vm.sigMask vm.blocked ∧
      ∀ s ∈ vm.sigMask.members, s ∈ e0.vm.blocked := by
  unfold sigCheckBody at h
  simp only at h
  have key : e0.vm.sigMask = vm.sigMask ∧
      e0.vm.blocked = sigprocmask How.SIG_BLOCK vm.sigMask vm.blocked := by
    cases hit : initTail vm.sigPending with
    | error f =>
      rw [hit] at h
      simp only [Option.some.injEq] at h
      subst h
      exact ⟨rfl, rfl⟩
    | ok tp =>
      rw [hit] at h
      simp only at h
      obtain ⟨d, _, post⟩ := sigCheckLoop_post N fuel _ tp [] e0 h
      exact ⟨post.mask, post.blocked⟩
  refine ⟨key.1, key.2, fun s hs => ?_⟩
  rw [key.2]
  exact mem_sigprocmask_block _ _ s hs

/-! ### The loop when memory can run out -/

theorem allocCell_error (cells : Option Nat) (f : Fault) (h : allocCell cells = .error f) :
    f = Fault.error := by
  unfold allocCell at h
  split at h
  · cases h
  · cases h; rfl
  · cases h

theorem sigCheckLoopCells_done (N : Int) (fuel : Nat) (cells : Option Nat) (vm : ScmVM)
    (tp : TailPtr) (acc : List Int) (h : vm.sigQueueHead = vm.sigQueueTail) :
    sigCheckLoopCells N fuel cells vm tp acc =
      some { vm := vm, tail := tp, drained := acc, fault := none } := by
  cases fuel <;> simp [sigCheckLoopCells, h]

theorem sigCheckLoopCells_zero (N : Int) (cells : Option Nat) (vm : ScmVM) (tp : TailPtr)
    (acc : List Int) (h : vm.sigQueueHead ≠ vm.sigQueueTail) :
    sigCheckLoopCells N 0 cells vm tp acc = none := by
  simp [sigCheckLoopCells, h]

theorem sigCheckLoopCells_succ (N : Int) (fuel : Nat) (cells : Option Nat) (vm : ScmVM)
    (tp : TailPtr) (acc : List Int)
    (h : vm.sigQueueHead ≠ vm.sigQueueTail) (hb : inBounds N vm.sigQueueHead) :
    sigCheckLoopCells N (fuel + 1) cells vm tp acc =
      match scanHandlers (dequeue N vm).1 (dequeue N vm).2.sigHandlers with
      | Scan.assertFailed =>
        some { vm := (dequeue N vm).2, tail := tp, drained := acc ++ [(dequeue N vm).1],
               fault := some Fault.panic }
      | Scan.unmatched =>
        sigCheckLoopCells N fuel cells (dequeue N vm).2 tp (acc ++ [(dequeue N vm).1])
      | Scan.matched hd =>
        match allocCell cells with
        | .error f =>
          some { vm := (dequeue N vm).2, tail := tp, drained := acc ++ [(dequeue N vm).1],
                 fault := some f }
        | .ok cells1 =>
          sigCheckLoopCells N fuel cells1 (appendHandler hd (dequeue N vm).2 tp).1
            (appendHandler hd (dequeue N vm).2 tp).2 (acc ++ [(dequeue N vm).1]) := by
  rw [sigCheckLoopCells]
  simp only [h, if_false, hb, not_true_eq_false]

theorem sigCheckLoopCells_undefined (N : Int) (fuel : Nat) (cells : Option Nat) (vm : ScmVM)
    (tp : TailPtr) (acc : List Int) (h : vm.sigQueueHead ≠ vm.sigQueueTail)
    (hb : ¬ inBounds N vm.sigQueueHead) :
    sigCheckLoopCells N (fuel + 1) cells vm tp acc =
      some { vm := vm, tail := tp, drained := acc, fault := some Fault.undefined } := by
  rw [sigCheckLoopCells]
  simp only [h, if_false, hb, not_false_eq_true, if_true]

/-- With no limit on the cells the loop is `sigCheckLoop`. -/
theorem sigCheckLoopCells_none (N : Int) (fuel : Nat) :
    ∀ (vm : ScmVM) (tp : TailPtr) (acc : List Int),
      sigCheckLoopCells N fuel none vm tp acc = sigCheckLoop N fuel vm tp acc := by
  induction fuel with
  | zero =>
    intro vm tp acc
    by_cases h : vm.sigQueueHead = vm.sigQueueTail
    · rw [sigCheckLoopCells_done N 0 none vm tp acc h, sigCheckLoop_done N 0 vm tp acc h]
    · rw [sigCheckLoopCells_zero N none vm tp acc h, sigCheckLoop_zero N vm tp acc h]
  | succ fuel ih =>
    intro vm tp acc
    by_cases h : vm.sigQueueHead = vm.sigQueueTail
    · rw [sigCheckLoopCells_done N _ none vm tp acc h, sigCheckLoop_done N _ vm tp acc h]
    by_cases hb : inBounds N vm.sigQueueHead
    swap
    · rw [sigCheckLoopCells_undefined N fuel none vm tp acc h hb,
        sigCheckLoop_undefined N fuel vm tp acc h hb]
    rw [sigCheckLoopCells_succ N fuel none vm tp acc h hb, sigCheckLoop_succ N fuel vm tp acc h hb]
    cases scanHandlers (dequeue N vm).1 (dequeue N vm).2.sigHandlers with
    | assertFailed => rfl
    | unmatched => exact ih _ _ _
    | matched hd => exact ih _ _ _

/-- With no limit on the cells the function is `Scm_SigCheck`. -/
theorem Scm_SigCheck_cells_none (N : Int) (fuel : Nat) (vm : ScmVM) :
    Scm_SigCheck_cells N fuel none vm = Scm_SigCheck N fuel vm := by
  have hb : ∀ v, sigCheckBodyCells N fuel none v = sigCheckBody N fuel v := by
    intro v
    unfold sigCheckBodyCells sigCheckBody
    cases initTail v.sigPending with
    | error f => rfl
    | ok tp => exact sigCheckLoopCells_none N fuel v tp []
  unfold Scm_SigCheck_cells Scm_SigCheck
  simp only [hb]

theorem cellsPost_done (N : Int) (vm : ScmVM) (tp : TailPtr) (acc : List Int)
    (h : vm.sigQueueHead = vm.sigQueueTail) :
    CellsPost N vm tp { vm := vm, tail := tp, drained := acc, fault := none } [] where
  queue := rfl
  tail := rfl
  overflow := rfl
  handlers := rfl
  mask := rfl
  blocked := rfl
  head := fun _ => h
  pending := fun _ => rfl
  faulted := by simp
  defined := by simp
  rangeKept := fun hr => hr
  contents := fun _ => by simp

/-- Partial correctness of the loop `sigCheckLoopCells`: every exit satisfies
`CellsPost`. -/
theorem sigCheckLoopCells_post (N : Int) (fuel : Nat) :
    ∀ (cells : Option Nat) (vm : ScmVM) (tp : TailPtr) (acc : List Int) (e : Exit),
      sigCheckLoopCells N fuel cells vm tp acc = some e →
      ∃ d, e.drained = acc ++ d ∧ CellsPost N vm tp e d := by
  induction fuel with
  | zero =>
    intro cells vm tp acc e he
    by_cases h : vm.sigQueueHead = vm.sigQueueTail
    · rw [sigCheckLoopCells_done N 0 cells vm tp acc h] at he
      cases he
      exact ⟨[], by simp, cellsPost_done N vm tp acc h⟩
    · rw [sigCheckLoopCells_zero N cells vm tp acc h] at he
      cases he
  | succ fuel ih =>
    intro cells vm tp acc e he
    by_cases h : vm.sigQueueHead = vm.sigQueueTail
    · rw [sigCheckLoopCells_done N _ cells vm tp acc h] at he
      cases he
      exact ⟨[], by simp, cellsPost_done N vm tp acc h⟩
    by_cases hb : inBounds N vm.sigQueueHead
    swap
    · rw [sigCheckLoopCells_undefined N fuel cells vm tp acc h hb] at he
      cases he
      refine ⟨[], by simp, ?_⟩
      have hnr : ¬ inRange N vm := fun hr => hb hr.1
      exact {
        queue := rfl, tail := rfl, overflow := rfl, handlers := rfl,
        mask := rfl, blocked := rfl, head := by simp, pending := by simp,
        faulted := by simp,
        defined := fun hr => absurd hr hnr, rangeKept := fun hr => absurd hr hnr,
        contents := fun hr => absurd hr hnr }
    rw [sigCheckLoopCells_succ N fuel cells vm tp acc h hb] at he
    have hsnd := dequeue_snd N vm
    have hH : (dequeue N vm).2.sigHandlers = vm.sigHandlers := by rw [hsnd]
    have hT : (dequeue N vm).2.sigQueueTail = vm.sigQueueTail := by rw [hsnd]
    have hQ : (dequeue N vm).2.sigQueue = vm.sigQueue := by rw [hsnd]
    have hP : (dequeue N vm).2.sigPending = vm.sigPending := by rw [hsnd]
    have hO : (dequeue N vm).2.sigOverflow = vm.sigOverflow := by rw [hsnd]
    have hM : (dequeue N vm).2.sigMask = vm.sigMask := by rw [hsnd]
    have hB : (dequeue N vm).2.blocked = vm.blocked := by rw [hsnd]
    rw [hH] at he
    generalize hs : (dequeue N vm).1 = s at he
    generalize hvm2 : (dequeue N vm).2 = vm2 at he hH hT hQ hP hO hM hB
    have hcont : inRange N vm → queueContents N vm = s :: queueContents N vm2 := by
      intro hr; rw [← hs, ← hvm2]; exact dequeue_contents N vm hr h
    have hin : inRange N vm → inRange N vm2 := by
      intro hr; rw [← hvm2]; exact dequeue_inRange N vm hr
    cases hsc : scanHandlers s vm.sigHandlers with
    | assertFailed =>
      rw [hsc] at he
      simp only [Option.some.injEq] at he
      subst he
      refine ⟨[s], rfl, ?_⟩
      exact {
        queue := hQ, tail := hT, overflow := hO, handlers := hH, mask := hM, blocked := hB
        head := by simp
        pending := by simp
        faulted := fun f hf _ => by
          simp only [Option.some.injEq] at hf
          subst hf
          exact ⟨[], s, rfl, by simp [pendingAfter, hP], fun _ => hsc, by simp⟩
        defined := by simp
        rangeKept := hin
        contents := fun hr => by rw [hcont hr]; rfl }
    | unmatched =>
      rw [hsc] at he
      simp only at he
      obtain ⟨d, hd, post⟩ := ih cells vm2 tp (acc ++ [s]) e he
      refine ⟨s :: d, by rw [hd]; simp, ?_⟩
      exact {
        queue := post.queue.trans hQ, tail := post.tail.trans hT
        overflow := post.overflow.trans hO, handlers := post.handlers.trans hH
        mask := post.mask.trans hM, blocked := post.blocked.trans hB
        head := fun hf => (post.head hf).trans hT
        pending := fun hf => by
          rw [post.pending hf, hH, hP]
          simp [handlerFor_of_unmatched _ _ hsc]
        faulted := fun f hf hu => by
          obtain ⟨processed, s1, hd1, hp1, hpa, her⟩ := post.faulted f hf hu
          refine ⟨s :: processed, s1, by rw [hd1]; rfl, ?_, ?_, ?_⟩
          · rw [hp1, hH, hP]
            simp [handlerFor_of_unmatched _ _ hsc]
          · rw [← hH]; exact hpa
          · rw [← hH]; exact her
        defined := fun hr => post.defined (hin hr)
        rangeKept := fun hr => post.rangeKept (hin hr)
        contents := fun hr => by rw [hcont hr, List.cons_append, post.contents (hin hr)] }
    | matched hd =>
      rw [hsc] at he
      simp only at he
      cases hal : allocCell cells with
      | error f1 =>
        rw [hal] at he
        simp only [Option.some.injEq] at he
        subst he
        have hf1 := allocCell_error cells f1 hal
        subst hf1
        refine ⟨[s], rfl, ?_⟩
        exact {
          queue := hQ, tail := hT, overflow := hO, handlers := hH, mask := hM, blocked := hB
          head := by simp
          pending := by simp
          faulted := fun f hf _ => by
            simp only [Option.some.injEq] at hf
            subst hf
            exact ⟨[], s, rfl, by simp [pendingAfter, hP], by simp, fun _ => ⟨hd, hsc⟩⟩
          defined := by simp
          rangeKept := hin
          contents := fun hr => by rw [hcont hr]; rfl }
      | ok cells1 =>
        rw [hal] at he
        simp only at he
        rw [appendHandler_eq] at he
        simp only at he
        obtain ⟨d, hdr, post⟩ := ih cells1 _ _ (acc ++ [s]) e he
        refine ⟨s :: d, by rw [hdr]; simp, ?_⟩
        have hr2 : inRange N vm → inRange N
            { vm2 with sigPending := (pendingAfter [hd] vm2.sigPending tp).1 } :=
          fun hr => (inRange_congr N vm2 _ rfl rfl).mpr (hin hr)
        exact {
          queue := post.queue.trans hQ, tail := post.tail.trans hT
          overflow := post.overflow.trans hO, handlers := post.handlers.trans hH
          mask := post.mask.trans hM, blocked := post.blocked.trans hB
          head := fun hf => (post.head hf).trans hT
          pending := fun hf => by
            rw [post.pending hf]
            simp only [List.filterMap_cons, hH, handlerFor_of_matched _ _ _ hsc]
            rw [hP]
            exact (pendingAfter_cons hd _ _ _).symm
          faulted := fun f hf hu => by
            obtain ⟨processed, s1, hd1, hp1, hpa, her⟩ := post.faulted f hf hu
            refine ⟨s :: processed, s1, by rw [hd1]; rfl, ?_, ?_, ?_⟩
            · rw [hp1]
              simp only [List.filterMap_cons, hH, handlerFor_of_matched _ _ _ hsc]
              rw [hP]
              exact (pendingAfter_cons hd _ _ _).symm
            · rw [← hH]; exact hpa
            · rw [← hH]; exact her
          defined := fun hr => post.defined (hr2 hr)
          rangeKept := fun hr => post.rangeKept (hr2 hr)
          contents := fun hr => by
            rw [hcont hr, List.cons_append, post.contents (hr2 hr)]
            exact congrArg _ (queueContents_congr N vm2 _ rfl rfl rfl) }

/-- Termination of the loop `sigCheckLoopCells`: from a state with valid indices
the loop ends, by leaving the loop or by a fault, within as many iterations as
there are numbers in the queue. -/
theorem sigCheckLoopCells_terminates (N : Int) (fuel : Nat) :
    ∀ (cells : Option Nat) (vm : ScmVM) (tp : TailPtr) (acc : List Int),
      inRange N vm → queueCount N vm ≤ fuel →
      ∃ e, sigCheckLoopCells N fuel cells vm tp acc = some e := by
  induction fuel with
  | zero =>
    intro cells vm tp acc hr hc
    have h : vm.sigQueueHead = vm.sigQueueTail :=
      (queueCount_eq_zero_iff N vm hr).mp (Nat.le_zero.mp hc)
    exact ⟨_, sigCheckLoopCells_done N 0 cells vm tp acc h⟩
  | succ fuel ih =>
    intro cells vm tp acc hr hc
    by_cases h : vm.sigQueueHead = vm.sigQueueTail
    · exact ⟨_, sigCheckLoopCells_done N _ cells vm tp acc h⟩
    rw [sigCheckLoopCells_succ N fuel cells vm tp acc h hr.1]
    have hr2 := dequeue_inRange N vm hr
    have hc2 : queueCount N (dequeue N vm).2 ≤ fuel := by
      have := dequeue_count N vm hr h
      omega
    cases hsc : scanHandlers (dequeue N vm).1 (dequeue N vm).2.sigHandlers with
    | assertFailed => exact ⟨_, rfl⟩
    | unmatched => exact ih _ _ _ _ hr2 hc2
    | matched hd =>
      simp only
      cases hal : allocCell cells with
      | error f1 => exact ⟨_, rfl⟩
      | ok cells1 =>
        simp only
        rw [appendHandler_eq]
        apply ih
        · exact (inRange_congr N (dequeue N vm).2 _ rfl rfl).mpr hr2
        · exact le_of_eq_of_le (queueCount_congr N (dequeue N vm).2 _ rfl rfl) hc2

/-! ### The mask at the exits -/

/-- An exit of `Scm_SigCheck_cells` is the exit of its protected section, but for
the overflow flag and the blocked signals. -/
theorem Scm_SigCheck_cells_exit (N : Int) (fuel : Nat) (cells : Option Nat) (vm : ScmVM)
    (e : Exit) (he : Scm_SigCheck_cells N fuel cells vm = some e) :
    ∃ e0, sigCheckBodyCells N fuel cells
        { vm with blocked := sigprocmask How.SIG_BLOCK vm.sigMask vm.blocked } = some e0 ∧
      e.fault = e0.fault ∧ e.drained = e0.drained ∧
      e.vm.sigPending = e0.vm.sigPending ∧ e.vm.sigQueue = e0.vm.sigQueue ∧
      e.vm.sigQueueHead = e0.vm.sigQueueHead ∧ e.vm.sigQueueTail = e0.vm.sigQueueTail := by
  unfold Scm_SigCheck_cells at he
  simp only at he
  cases hb : sigCheckBodyCells N fuel cells
      { vm with blocked := sigprocmask How.SIG_BLOCK vm.sigMask vm.blocked } with
  | none => rw [hb] at he; cases he
  | some e0 =>
    rw [hb] at he
    simp only at he
    refine ⟨e0, rfl, ?_⟩
    cases hf : e0.fault with
    | none =>
      rw [hf] at he
      simp only [Option.some.injEq] at he
      subst he
      exact ⟨rfl, rfl, rfl, rfl, rfl, rfl⟩
    | some f =>
      rw [hf] at he
      cases f with
      | error =>
        simp only [unwinds, if_true, Option.some.injEq] at he
        subst he
        exact ⟨rfl, rfl, rfl, rfl, rfl, rfl⟩
      | panic =>
        simp only [unwinds, Bool.false_eq_true, if_false, Option.some.injEq] at he
        subst he
        exact ⟨hf, rfl, rfl, rfl, rfl, rfl⟩
      | undefined =>
        simp only [unwinds, Bool.false_eq_true, if_false, Option.some.injEq] at he
        subst he
        exact ⟨hf, rfl, rfl, rfl, rfl, rfl⟩

/-- The protected section with valid indices: it ends within as many iterations
as there are numbers in the queue, without an access out of bounds, and leaves
the mask and the blocked signals as they were. -/
theorem sigCheckBodyCells_ends (N : Int) (fuel : Nat) (cells : Option Nat) (vm : ScmVM)
    (hr : inRange N vm) (hc : queueCount N vm ≤ fuel) :
    ∃ e0, sigCheckBodyCells N fuel cells vm = some e0 ∧
      e0.vm.sigMask = vm.sigMask ∧ e0.vm.blocked = vm.blocked ∧
      e0.fault ≠ some Fault.undefined := by
  unfold sigCheckBodyCells
  cases hit : initTail vm.sigPending with
  | error f =>
    refine ⟨_, rfl, rfl, rfl, ?_⟩
    rw [initTail_error _ _ hit]
    simp
  | ok tp =>
    obtain ⟨e0, h0⟩ := sigCheckLoopCells_terminates N fuel cells vm tp [] hr hc
    obtain ⟨d, _, post⟩ := sigCheckLoopCells_post N fuel cells vm tp [] e0 h0
    exact ⟨e0, h0, post.mask, post.blocked, post.defined hr⟩

/-- C11 (counterexample): with 32 slots, the mask `{INT, TERM}`, no signal blocked
at the call, the queue `INT, TERM, INT` and a registry whose second entry is
malformed, `Scm_SigCheck` ends in the fault of the failed `SCM_ASSERT`, raised
in the protected section while `TERM` is processed, and `INT` and `TERM`, the
signals of `vm->sigMask`, are still blocked. -/
theorem C11_counterexample_assertion_leaves_mask_blocked :
    (Scm_SigCheck 32 3 malformedVM).map (fun e => (e.fault, e.drained)) =
        some (some Fault.panic, [SIGINT, SIGTERM]) ∧
    (Scm_SigCheck 32 3 malformedVM).map (fun e => e.vm.blocked) =
        some [SIGINT, SIGTERM] ∧
    malformedVM.sigMask.members = [SIGINT, SIGTERM] ∧
    malformedVM.blocked = [] := by
  refine ⟨?_, ?_, ?_, ?_⟩ <;> decide!

/-- C11 (amended): with the signals blocked for the thread as the field
`blocked`, valid queue indices, and `Scm_Cons` raising a Scheme error when the
cells run out: `Scm_SigCheck` ends, and its result is the result of the
protected section, a normal return, a Scheme error (raised by `Scm_LastPair`
before the loop or by `Scm_Cons` while a queued signal is processed) or the
failed `SCM_ASSERT`.  On a normal return and on a Scheme error the `SIG_UNBLOCK`
of `vm->sigMask` has been applied and no signal of `vm->sigMask` is blocked; on
the failed `SCM_ASSERT`, which does not run the `SCM_WHEN_ERROR` clause, every
signal of `vm->sigMask` is still blocked. -/
theorem C11_mask_released_unless_assertion_fails (N : Int) (fuel : Nat) (cells : Option Nat)
    (vm : ScmVM) (hr : inRange N vm) (hc : queueCount N vm ≤ fuel) :
    ∃ e0 e,
      sigCheckBodyCells N fuel cells
        { vm with blocked := sigprocmask How.SIG_BLOCK vm.sigMask vm.blocked } = some e0 ∧
      Scm_SigCheck_cells N fuel cells vm = some e ∧
      e.fault = e0.fault ∧ e.drained = e0.drained ∧
      (e.fault = none ∨ e.fault = some Fault.error ∨ e.fault = some Fault.panic) ∧
      (e.fault ≠ some Fault.panic →
        e.vm.blocked = sigprocmask How.SIG_UNBLOCK vm.sigMask
          (sigprocmask How.SIG_BLOCK vm.sigMask vm.blocked) ∧
        ∀ s ∈ vm.sigMask.members, s ∉ e.vm.blocked) ∧
      (e.fault = some Fault.panic →
        e.vm.blocked = sigprocmask How.SIG_BLOCK vm.sigMask vm.blocked ∧
        ∀ s ∈ vm.sigMask.members, s ∈ e.vm.blocked) := by
  obtain ⟨e0, hbody, hm, hb, hdef⟩ := sigCheckBodyCells_ends N fuel cells
    { vm with blocked := sigprocmask How.SIG_BLOCK vm.sigMask vm.blocked }
    ((inRange_congr N vm _ rfl rfl).mpr hr)
    (le_of_eq_of_le (queueCount_congr N vm _ rfl rfl) hc)
  have hm1 : e0.vm.sigMask = vm.sigMask := hm
  have hb1 : e0.vm.blocked = sigprocmask How.SIG_BLOCK vm.sigMask vm.blocked := hb
  have hrel : sigprocmask How.SIG_UNBLOCK e0.vm.sigMask e0.vm.blocked =
      sigprocmask How.SIG_UNBLOCK vm.sigMask
        (sigprocmask How.SIG_BLOCK vm.sigMask vm.blocked) ∧
      ∀ s ∈ vm.sigMask.members,
        s ∉ sigprocmask How.SIG_UNBLOCK e0.vm.sigMask e0.vm.blocked := by
    rw [hm1, hb1]
    exact ⟨rfl, fun s hs => not_mem_sigprocmask_unblock _ _ s hs⟩
  cases hf : e0.fault with
  | none =>
    have hS : Scm_SigCheck_cells N fuel cells vm = some { e0 with vm := { e0.vm with
        sigOverflow := 0,
        blocked := sigprocmask How.SIG_UNBLOCK e0.vm.sigMask e0.vm.blocked } } := by
      unfold Scm_SigCheck_cells
      simp only [hbody, hf]
    exact ⟨e0, _, hbody, hS, rfl, rfl, Or.inl hf, fun _ => hrel,
      fun h => by rw [hf] at h; cases h⟩
  | some f =>
    cases f with
    | error =>
      have hS : Scm_SigCheck_cells N fuel cells vm = some { e0 with vm := { e0.vm with
          blocked := sigprocmask How.SIG_UNBLOCK e0.vm.sigMask e0.vm.blocked } } := by
        unfold Scm_SigCheck_cells
        simp only [hbody, hf, unwinds, if_true]
      exact ⟨e0, _, hbody, hS, rfl, rfl, Or.inr (Or.inl hf), fun _ => hrel,
        fun h => by rw [hf] at h; cases h⟩
    | panic =>
      have hS : Scm_SigCheck_cells N fuel cells vm = some e0 := by
        unfold Scm_SigCheck_cells
        simp only [hbody, hf, unwinds, Bool.false_eq_true, if_false]
      refine ⟨e0, e0, hbody, hS, rfl, rfl, Or.inr (Or.inr hf), fun h => absurd hf h, fun _ => ?_⟩
      refine ⟨hb1, fun s hs => ?_⟩
      rw [hb1]
      exact mem_sigprocmask_block _ _ s hs
    | undefined => exact absurd hf hdef

/-- C11 (witness): 32 slots, the mask `{INT, TERM}`, the queue `INT, TERM, INT`
and one cell left: the protected section appends `H1` for the first `INT` and
ends while `TERM` is processed, with the Scheme error of `Scm_Cons`. -/
theorem C11_mask_released_unless_assertion_fails_witness :
    inRange 32 threeQueuedVM ∧ queueCount 32 threeQueuedVM ≤ 3 ∧
    sigCheckBodyCells 32 3 (some 1)
      { threeQueuedVM with
        blocked := sigprocmask How.SIG_BLOCK threeQueuedVM.sigMask threeQueuedVM.blocked } =
      some allocFaultBodyExit ∧
    ∃ e0 e,
      sigCheckBodyCells 32 3 (some 1)
        { threeQueuedVM with
          blocked := sigprocmask How.SIG_BLOCK threeQueuedVM.sigMask threeQueuedVM.blocked } =
        some e0 ∧
      Scm_SigCheck_cells 32 3 (some 1) threeQueuedVM = some e ∧
      e.fault = e0.fault ∧ e.drained = e0.drained ∧
      (e.fault = none ∨ e.fault = some Fault.error ∨ e.fault = some Fault.panic) ∧
      (e.fault ≠ some Fault.panic →
        e.vm.blocked = sigprocmask How.SIG_UNBLOCK threeQueuedVM.sigMask
          (sigprocmask How.SIG_BLOCK threeQueuedVM.sigMask threeQueuedVM.blocked) ∧
        ∀ s ∈ threeQueuedVM.sigMask.members, s ∉ e.vm.blocked) ∧
      (e.fault = some Fault.panic →
        e.vm.blocked = sigprocmask How.SIG_BLOCK threeQueuedVM.sigMask threeQueuedVM.blocked ∧
        ∀ s ∈ threeQueuedVM.sigMask.members, s ∈ e.vm.blocked) :=
  ⟨by decide, by decide, rfl,
    C11_mask_released_unless_assertion_fails 32 3 (some 1) threeQueuedVM (by decide) (by decide)⟩

/-! ### The state left by a fault -/

/-- The pending list at an exit of `Scm_SigCheck`: the list at entry, followed,
if the pending object at entry is a pair, by the handler values found for the
numbers read. -/
theorem listOf_pending_of_post (N : Int) (vm : ScmVM) (e : Exit) (post : SigCheckPost N vm e) :
    listOf e.vm.sigPending = listOf vm.sigPending ++
      appendedTo vm.sigPending (e.drained.filterMap (handlerFor vm.sigHandlers)) := by
  cases hit : initTail vm.sigPending with
  | error f =>
    obtain ⟨_, _, hp, _⟩ := post.error f hit
    rw [hp]
    cases hvp : vm.sigPending with
    | pair a d => rw [hvp, initTail_pair] at hit; cases hit
    | nil => simp [appendedTo]
    | sigset s => simp [appendedTo]
    | other n => simp [appendedTo]
  | ok tp =>
    have hp := congrArg Prod.fst (post.pending tp hit)
    simp only at hp
    rcases initTail_ok_cases _ _ hit with ⟨hnil, rfl⟩ | ⟨a, d, hpd, rfl⟩
    · rw [pendingAfter_null] at hp
      rw [hp, hnil]; simp [appendedTo]
    · rw [hp, hpd, pendingAfter_lastOfPending_listOf]; rfl

/-- C12 (counterexample): with 32 slots, the queue `INT, TERM, INT`, the pending
list `[H2]`, the registry `[({INT}, H1), ({INT, TERM}, H2)]` and one cell left,
`Scm_SigCheck` appends `H1` for the first `INT` and faults while it processes
`TERM`, with the Scheme error of `Scm_Cons`, which unwinds to the caller with
the mask released.  In the state left behind the pending list is `[H2, H1]`, the
head index is 2 and the tail index 3: the queue is not empty, it still holds the
last `INT`, and a later call of `Scm_SigCheck` reads it and appends `H1`. -/
theorem C12_counterexample_queue_not_emptied :
    (Scm_SigCheck_cells 32 3 (some 1) threeQueuedVM).map (fun e => (e.fault, e.drained)) =
        some (some Fault.error, [SIGINT, SIGTERM]) ∧
    (Scm_SigCheck_cells 32 3 (some 1) threeQueuedVM).map (fun e => e.vm.blocked) =
        some [] ∧
    (Scm_SigCheck_cells 32 3 (some 1) threeQueuedVM).map (fun e => e.vm.sigPending) =
        some (ofList [H2, H1]) ∧
    (Scm_SigCheck_cells 32 3 (some 1) threeQueuedVM).map
        (fun e => (e.vm.sigQueueHead, e.vm.sigQueueTail)) = some (2, 3) ∧
    (Scm_SigCheck_cells 32 3 (some 1) threeQueuedVM).map (fun e => queueContents 32 e.vm) =
        some [SIGINT] ∧
    ((Scm_SigCheck_cells 32 3 (some 1) threeQueuedVM).bind
        (fun e => Scm_SigCheck 32 1 e.vm)).map
        (fun e => (e.fault, e.drained, e.vm.sigPending)) =
        some (none, [SIGINT], ofList [H2, H1, H1]) := by
  refine ⟨?_, ?_, ?_, ?_, ?_, ?_⟩ <;> decide!

/-- C12 (amended): if `Scm_SigCheck`, called with valid indices and a pending
list that is not empty, faults while it processes a queued number `s` (the
failed `SCM_ASSERT` in the scan for `s`, or the Scheme error of `Scm_Cons` for
the handler found for `s`), then in the state left behind (a) the pending list
is the list at entry followed by the handler values found for the numbers
processed before `s`, and (b) the head index stands just behind `s`: the
numbers processed and `s` are out of the queue, and the numbers that were
queued behind `s` are still in the queue, in order, so that the queue is empty
only if `s` was the last number queued. -/
theorem C12_fault_keeps_progress_and_rest_of_queue (N : Int) (fuel : Nat)
    (cells : Option Nat) (vm : ScmVM) (e : Exit) (a d : ScmObj) (f : Fault)
    (hr : inRange N vm) (hp : vm.sigPending = ScmObj.pair a d)
    (he : Scm_SigCheck_cells N fuel cells vm = some e) (hf : e.fault = some f) :
    ∃ processed s, e.drained = processed ++ [s] ∧
      listOf e.vm.sigPending =
        listOf vm.sigPending ++ processed.filterMap (handlerFor vm.sigHandlers) ∧
      queueContents N vm = processed ++ s :: queueContents N e.vm ∧
      e.vm.sigQueueTail = vm.sigQueueTail ∧
      (e.vm.sigQueueHead = e.vm.sigQueueTail ↔ queueContents N vm = processed ++ [s]) ∧
      (f = Fault.panic → scanHandlers s vm.sigHandlers = Scan.assertFailed) ∧
      (f = Fault.error → ∃ h, scanHandlers s vm.sigHandlers = Scan.matched h) := by
  obtain ⟨e0, hbody, hef, hed, hep, heq, heh, het⟩ :=
    Scm_SigCheck_cells_exit N fuel cells vm e he
  have hit : initTail
      ({ vm with blocked := sigprocmask How.SIG_BLOCK vm.sigMask vm.blocked } : ScmVM).sigPending =
      .ok TailPtr.lastOfPending := by
    show initTail vm.sigPending = _
    rw [hp]
    exact initTail_pair a d
  unfold sigCheckBodyCells at hbody
  rw [hit] at hbody
  simp only at hbody
  obtain ⟨dr, hdr, post⟩ := sigCheckLoopCells_post N fuel cells _ _ [] e0 hbody
  have hr0 : inRange N
      { vm with blocked := sigprocmask How.SIG_BLOCK vm.sigMask vm.blocked } :=
    (inRange_congr N vm _ rfl rfl).mpr hr
  have hf0 : e0.fault = some f := by rw [← hef]; exact hf
  have hu : f ≠ Fault.undefined := by
    intro h
    rw [h] at hf0
    exact post.defined hr0 hf0
  obtain ⟨processed, s, hd, hpend, hpa, her⟩ := post.faulted f hf0 hu
  simp only [List.nil_append] at hdr
  have hmain : queueContents N vm = processed ++ s :: queueContents N e.vm := by
    have hc := post.contents hr0
    rw [hd] at hc
    have hq : queueContents N e.vm = queueContents N e0.vm :=
      queueContents_congr N e0.vm e.vm heq heh het
    have hq0 : queueContents N
        { vm with blocked := sigprocmask How.SIG_BLOCK vm.sigMask vm.blocked } =
        queueContents N vm := queueContents_congr N vm _ rfl rfl rfl
    rw [hq, ← hq0, ← hc]
    simp
  have hre : inRange N e.vm := (inRange_congr N e0.vm e.vm heh het).mpr (post.rangeKept hr0)
  refine ⟨processed, s, by rw [hed, hdr, hd], ?_, hmain, ?_, ?_, hpa, her⟩
  · have h1 := congrArg Prod.fst hpend
    simp only at h1
    rw [hep, h1, hp]
    exact pendingAfter_lastOfPending_listOf _ a d
  · rw [het]
    exact post.tail
  · constructor
    · intro hht
      rw [hmain, queueContents_empty N e.vm hht]
    · intro h
      rw [hmain] at h
      have hnil : queueContents N e.vm = [] := by simpa using h
      have hlen : (queueContents N e.vm).length = queueCount N e.vm := by
        unfold queueContents
        simp
      rw [hnil] at hlen
      exact (queueCount_eq_zero_iff N e.vm hre).mp hlen.symm

/-- C12 (witness): the state `threeQueuedVM` with one cell left; the fault is the
Scheme error of `Scm_Cons` while `TERM` is processed. -/
theorem C12_fault_keeps_progress_and_rest_of_queue_witness :
    inRange 32 threeQueuedVM ∧
    Scm_SigCheck_cells 32 3 (some 1) threeQueuedVM = some allocFaultExit ∧
    ∃ processed s, allocFaultExit.drained = processed ++ [s] ∧
      listOf allocFaultExit.vm.sigPending =
        listOf threeQueuedVM.sigPending ++
          processed.filterMap (handlerFor threeQueuedVM.sigHandlers) ∧
      queueContents 32 threeQueuedVM = processed ++ s :: queueContents 32 allocFaultExit.vm ∧
      allocFaultExit.vm.sigQueueTail = threeQueuedVM.sigQueueTail ∧
      (allocFaultExit.vm.sigQueueHead = allocFaultExit.vm.sigQueueTail ↔
        queueContents 32 threeQueuedVM = processed ++ [s]) ∧
      (Fault.error = Fault.panic →
        scanHandlers s threeQueuedVM.sigHandlers = Scan.assertFailed) ∧
      (Fault.error = Fault.error →
        ∃ h, scanHandlers s threeQueuedVM.sigHandlers = Scan.matched h) :=
  ⟨by decide, rfl,
    C12_fault_keeps_progress_and_rest_of_queue 32 3 (some 1) threeQueuedVM allocFaultExit
      H2 ScmObj.nil Fault.error (by decide) rfl rfl rfl⟩

/-- The scan for `s` fails the assertion when it comes to a malformed entry
without having found a match: every entry before it is a pair of a signal set
that does not contain `s` and a handler. -/
theorem scanHandlers_of_malformed (s : Int) (bad : ScmObj) (after : List ScmObj)
    (hbad : ∀ set h, bad ≠ ScmObj.pair (ScmObj.sigset set) h) :
    ∀ (before : List ScmObj) (reg : ScmObj),
      listOf reg = before ++ bad :: after →
      (∀ x ∈ before, ∃ (set : sigset_t) (h : ScmObj),
        x = ScmObj.pair (ScmObj.sigset set) h ∧ s ∉ set.members) →
      scanHandlers s reg = Scan.assertFailed := by
  intro before
  induction before with
  | nil =>
    intro reg hl _
    cases reg with
    | nil => simp [listOf] at hl
    | sigset set => simp [listOf] at hl
    | other n => simp [listOf] at hl
    | pair a d =>
      simp only [listOf, List.nil_append, List.cons.injEq] at hl
      obtain ⟨rfl, _⟩ := hl
      cases a with
      | nil => simp [scanHandlers]
      | sigset set => simp [scanHandlers]
      | other n => simp [scanHandlers]
      | pair x hd =>
        cases x with
        | nil => simp [scanHandlers]
        | other n => simp [scanHandlers]
        | pair y z => simp [scanHandlers]
        | sigset set => exact absurd rfl (hbad set hd)
  | cons b before ih =>
    intro reg hl hb
    cases reg with
    | nil => simp [listOf] at hl
    | sigset set => simp [listOf] at hl
    | other n => simp [listOf] at hl
    | pair a d =>
      simp only [listOf, List.cons_append, List.cons.injEq] at hl
      obtain ⟨rfl, hl⟩ := hl
      obtain ⟨set, h, rfl, hns⟩ := hb a (List.mem_cons_self _ _)
      simp only [scanHandlers]
      rw [if_neg (fun hne => hns ((sigismember_ne_zero set s).mp hne))]
      exact ih d hl (fun x hx => hb x (List.mem_cons_of_mem _ hx))

/-- C13: if the registry has an entry that is not a pair whose first component
is a signal set, every entry before it is well formed, and a queued number `s`
is in none of the sets before it, then the scan for `s` fails the assertion at
that entry, `Scm_SigCheck` ends in that fault, and the elements added to the
pending list are handlers of first matching well-formed entries for numbers read
other than `s`: the malformed entry is not skipped and adds nothing. -/
theorem C13_malformed_entry_faults (N : Int) (fuel : Nat) (vm : ScmVM) (s : Int)
    (before : List ScmObj) (bad : ScmObj) (after : List ScmObj) (tp : TailPtr)
    (hr : inRange N vm) (hc : queueCount N vm ≤ fuel)
    (hinit : initTail vm.sigPending = .ok tp)
    (hs : s ∈ queueContents N vm)
    (hreg : listOf vm.sigHandlers = before ++ bad :: after)
    (hbefore : ∀ x ∈ before, ∃ (set : sigset_t) (h : ScmObj),
      x = ScmObj.pair (ScmObj.sigset set) h ∧ s ∉ set.members)
    (hbad : ∀ set h, bad ≠ ScmObj.pair (ScmObj.sigset set) h) :
    scanHandlers s vm.sigHandlers = Scan.assertFailed ∧
    ∃ e, Scm_SigCheck N fuel vm = some e ∧ e.fault = some Fault.panic ∧
      ∃ (added : List ScmObj) (occurrences : List Int),
        listOf e.vm.sigPending = listOf vm.sigPending ++ added ∧
        occurrences.Sublist e.drained ∧ s ∉ occurrences ∧
        List.Forall₂ (IsFirstMatch vm.sigHandlers) occurrences added := by
  have hscan := scanHandlers_of_malformed s bad after hbad before vm.sigHandlers hreg hbefore
  refine ⟨hscan, ?_⟩
  obtain ⟨e, he⟩ := Scm_SigCheck_terminates N fuel vm hr hc
  have post := Scm_SigCheck_post N fuel vm e he
  have hf : e.fault = some Fault.panic := by
    cases hef : e.fault with
    | none =>
      exfalso
      have hd := queueContents_of_exit N vm e post hr hef
      exact post.noPanic (by rw [hef]; simp) s (by rw [hd]; exact hs) hscan
    | some f =>
      cases f with
      | panic => rfl
      | error => have := post.errorOnly hef; rw [hinit] at this; cases this
      | undefined => exact absurd hef (post.defined hr)
  have hnone : handlerFor vm.sigHandlers s = none := handlerFor_of_assertFailed _ _ hscan
  have hocc : s ∉ e.drained.filter (fun x => (handlerFor vm.sigHandlers x).isSome) := by
    intro hmem
    have := (List.mem_filter.mp hmem).2
    rw [hnone] at this
    cases this
  rcases initTail_ok_cases _ _ hinit with ⟨hnil, _⟩ | ⟨a, d, hpd, _⟩
  · refine ⟨e, he, hf, [], [], ?_, by simp, by simp, List.Forall₂.nil⟩
    rw [listOf_pending_of_post N vm e post, hnil]; simp [appendedTo]
  · refine ⟨e, he, hf, e.drained.filterMap (handlerFor vm.sigHandlers),
      e.drained.filter (fun x => (handlerFor vm.sigHandlers x).isSome), ?_,
      List.filter_sublist _, hocc, forall₂_isFirstMatch _ _⟩
    rw [listOf_pending_of_post N vm e post, hpd]; rfl

/-- C13 (witness): the state `malformedVM`; the scan for `TERM` passes the entry
`({INT} . H1)` and comes to an entry that is not a pair. -/
theorem C13_malformed_entry_faults_witness :
    scanHandlers SIGTERM malformedVM.sigHandlers = Scan.assertFailed ∧
    ∃ e, Scm_SigCheck 32 3 malformedVM = some e ∧ e.fault = some Fault.panic ∧
      ∃ (added : List ScmObj) (occurrences : List Int),
        listOf e.vm.sigPending = listOf malformedVM.sigPending ++ added ∧
        occurrences.Sublist e.drained ∧ SIGTERM ∉ occurrences ∧
        List.Forall₂ (IsFirstMatch malformedVM.sigHandlers) occurrences added :=
  C13_malformed_entry_faults 32 3 malformedVM SIGTERM
    [ScmObj.pair (ScmObj.sigset { members := [SIGINT] }) H1] (ScmObj.other 5) []
    TailPtr.lastOfPending (by decide) (by decide) rfl (by decide) rfl
    (by simp [SIGINT, SIGTERM]) (by simp)

theorem pendingAfter_lastOfFresh (hs : List ScmObj) (p : ScmObj) :
    ∀ (a : ScmObj) (P : List ScmObj),
      pendingAfter hs p (TailPtr.lastOfFresh (ofList (a :: P))) =
        (p, TailPtr.lastOfFresh (ofList (a :: P ++ hs))) := by
  induction hs with
  | nil => intro a P; simp [pendingAfter]
  | cons h hs ih =>
    intro a P
    rw [pendingAfter, ofList_setLastCdr]
    have := ih a (P ++ [h])
    simp only [List.cons_append, List.append_assoc, List.singleton_append] at this ⊢
    exact this

/-- Starting from a null `tail`, the pending object is never written and the
handler values are chained from the local `tail`. -/
theorem pendingAfter_null_eq (hs : List ScmObj) (p : ScmObj) :
    pendingAfter hs p TailPtr.null = (p, freshTail hs) := by
  cases hs with
  | nil => rfl
  | cons h hs =>
    have := pendingAfter_lastOfFresh hs p h []
    simp only [List.nil_append] at this
    rw [pendingAfter]
    exact this

/-- C15: if `vm->sigPending` is the empty list when `Scm_SigCheck` is entered,
with valid indices and whatever the registry and the queue hold, the call ends
with `vm->sigPending` still the empty list; the cells made for the matching
numbers form a list that only the local `tail` designates. -/
theorem C15_empty_pending_stays_empty (N : Int) (fuel : Nat) (vm : ScmVM)
    (hr : inRange N vm) (hc : queueCount N vm ≤ fuel) (hp : vm.sigPending = ScmObj.nil) :
    ∃ e, Scm_SigCheck N fuel vm = some e ∧ e.vm.sigPending = ScmObj.nil ∧
      e.tail = freshTail (e.drained.filterMap (handlerFor vm.sigHandlers)) := by
  obtain ⟨e, he⟩ := Scm_SigCheck_terminates N fuel vm hr hc
  have post := Scm_SigCheck_post N fuel vm e he
  have hpe := post.pending TailPtr.null (by rw [hp]; exact initTail_nil)
  rw [pendingAfter_null_eq, hp] at hpe
  exact ⟨e, he, congrArg Prod.fst hpe, congrArg Prod.snd hpe⟩

/-- C15 (witness): 32 slots, the queue `INT, TERM, INT` and an empty pending
list. -/
theorem C15_empty_pending_stays_empty_witness :
    ∃ e, Scm_SigCheck 32 3 (queuedVM [SIGINT, SIGTERM, SIGINT] ScmObj.nil 0) = some e ∧
      e.vm.sigPending = ScmObj.nil ∧
      e.tail = freshTail (e.drained.filterMap
        (handlerFor (queuedVM [SIGINT, SIGTERM, SIGINT] ScmObj.nil 0).sigHandlers)) :=
  C15_empty_pending_stays_empty 32 3 (queuedVM [SIGINT, SIGTERM, SIGINT] ScmObj.nil 0)
    (by decide) (by decide) rfl

/-! ## Reachable states -/

theorem sig_handle_inBounds (N s : Int) (vm vm1 : ScmVM) (h : sig_handle N s vm = .ok vm1)
    (hov : vm.sigOverflow = 0) : inBounds N vm.sigQueueTail := by
  by_contra hb
  unfold sig_handle at h
  simp only [hov, ne_eq, not_true_eq_false, if_false, hb, not_false_eq_true, if_true] at h
  split_ifs at h

/-- A call of `sig_handle` keeps the property that a set overflow flag goes with
head = tail. -/
theorem sig_handle_overflow_inv (N s : Int) (vm vm1 : ScmVM)
    (h : sig_handle N s vm = .ok vm1)
    (hinv : vm.sigOverflow ≠ 0 → vm.sigQueueHead = vm.sigQueueTail) :
    vm1.sigOverflow ≠ 0 → vm1.sigQueueHead = vm1.sigQueueTail := by
  by_cases hov : vm.sigOverflow = 0
  · have hb := sig_handle_inBounds N s vm vm1 h hov
    obtain ⟨vm2, hk, _, hh, ht, ho, _⟩ := sig_handle_ok N s vm hov hb
    rw [h] at hk
    cases hk
    intro hne
    rw [ho] at hne
    rw [hh, ht]
    split_ifs at hne ⊢ <;> omega
  · rw [sig_handle_of_overflow N s vm hov] at h
    cases h
    exact hinv

/-- On an empty queue `Scm_SigCheck` leaves the head index where it is and ends
by returning or by the error of `Scm_LastPair`. -/
theorem Scm_SigCheck_of_empty_exit (N : Int) (fuel : Nat) (vm : ScmVM) (e : Exit)
    (h : vm.sigQueueHead = vm.sigQueueTail) (he : Scm_SigCheck N fuel vm = some e) :
    e.vm.sigQueueHead = vm.sigQueueHead ∧ e.vm.sigQueueTail = vm.sigQueueTail := by
  unfold Scm_SigCheck sigCheckBody at he
  simp only at he
  cases hit : initTail vm.sigPending with
  | error f =>
    rw [hit] at he
    simp only at he
    cases hu : unwinds f <;> rw [hu] at he <;> simp only [Bool.false_eq_true, if_false,
      if_true, Option.some.injEq] at he <;> subst he <;> exact ⟨rfl, rfl⟩
  | ok tp =>
    rw [hit] at he
    simp only at he
    rw [sigCheckLoop_done N fuel
      { vm with blocked := sigprocmask How.SIG_BLOCK vm.sigMask vm.blocked } tp [] h] at he
    simp only [Option.some.injEq] at he
    subst he
    exact ⟨rfl, rfl⟩

/-- A call of `Scm_SigCheck`, however it ends, keeps the property that a set
overflow flag goes with head = tail. -/
theorem Scm_SigCheck_overflow_inv (N : Int) (fuel : Nat) (vm : ScmVM) (e : Exit)
    (he : Scm_SigCheck N fuel vm = some e)
    (hinv : vm.sigOverflow ≠ 0 → vm.sigQueueHead = vm.sigQueueTail) :
    e.vm.sigOverflow ≠ 0 → e.vm.sigQueueHead = e.vm.sigQueueTail := by
  have post := Scm_SigCheck_post N fuel vm e he
  intro hne
  cases hf : e.fault with
  | none => exact absurd (post.overflow hf) hne
  | some f =>
    have hk := post.overflowKept (by rw [hf]; simp)
    rw [hk] at hne
    have hem := hinv hne
    obtain ⟨h1, h2⟩ := Scm_SigCheck_of_empty_exit N fuel vm e hem he
    rw [h1, h2]; exact hem

theorem runOps_overflow_inv (N : Int) (ops : List Op) :
    ∀ (vm0 vm : ScmVM), runOps N ops vm0 = some vm →
      (vm0.sigOverflow ≠ 0 → vm0.sigQueueHead = vm0.sigQueueTail) →
      vm.sigOverflow ≠ 0 → vm.sigQueueHead = vm.sigQueueTail := by
  induction ops with
  | nil =>
    intro vm0 vm h hinv
    simp only [runOps, Option.some.injEq] at h
    subst h
    exact hinv
  | cons op ops ih =>
    intro vm0 vm h hinv
    cases op with
    | handle s =>
      simp only [runOps] at h
      cases hk : sig_handle N s vm0 with
      | error f => rw [hk] at h; cases h
      | ok vm1 =>
        rw [hk] at h
        exact ih vm1 vm h (sig_handle_overflow_inv N s vm0 vm1 hk hinv)
    | check fuel =>
      simp only [runOps] at h
      cases hk : Scm_SigCheck N fuel vm0 with
      | none => rw [hk] at h; cases h
      | some e =>
        rw [hk] at h
        exact ih e.vm vm h (Scm_SigCheck_overflow_inv N fuel vm0 e hk hinv)

/-- C16: in every state reached from an initial state (head = tail = 0, overflow
0) by calls of `sig_handle` and `Scm_SigCheck` in any order, a set overflow flag
goes with head = tail, and every further `sig_handle` returns that state
unchanged. -/
theorem C16_overflow_implies_queue_reads_empty (N : Int) (ops : List Op) (vm0 vm : ScmVM)
    (hh : vm0.sigQueueHead = 0) (ht : vm0.sigQueueTail = 0) (_ho : vm0.sigOverflow = 0)
    (hrun : runOps N ops vm0 = some vm) (hov : vm.sigOverflow ≠ 0) :
    vm.sigQueueHead = vm.sigQueueTail ∧ ∀ s, sig_handle N s vm = .ok vm :=
  ⟨runOps_overflow_inv N ops vm0 vm hrun (fun _ => hh.trans ht.symm) hov,
    fun s => sig_handle_of_overflow N s vm hov⟩

theorem getD_of_isSome {α : Type} (o : Option α) (d : α) (h : o.isSome = true) :
    o = some (o.getD d) := by
  cases o with
  | none => cases h
  | some a => rfl

/-- C16 (witness): the fresh queue of 32 slots and the calls `overflowOps`, which
set the overflow flag. -/
theorem C16_overflow_implies_queue_reads_empty_witness :
    overflowReachedVM.sigOverflow ≠ 0 ∧
    (overflowReachedVM.sigQueueHead = overflowReachedVM.sigQueueTail ∧
      ∀ s, sig_handle 32 s overflowReachedVM = .ok overflowReachedVM) :=
  ⟨by decide!,
    C16_overflow_implies_queue_reads_empty 32 overflowOps (emptyVM 0 ScmObj.nil)
      overflowReachedVM rfl rfl rfl
      (getD_of_isSome _ _ (by decide!)) (by decide!)⟩

/-- C17: for every empty queue at a slot `h`, `0 <= h < N`, with overflow clear,
and every sequence of at most `N - 1` signal numbers, overflow is clear after
each of the calls of `sig_handle`, and the loop of the `Scm_SigCheck` that
follows reads exactly those numbers in the order enqueued, wherever the tail
index goes round the end of the buffer. -/
theorem C17_enqueue_then_drain_from_any_slot (N : Int) (fuel : Nat) (sigs : List Int)
    (vm : ScmVM) (entries : List (sigset_t × ScmObj)) (P : List ScmObj)
    (hh0 : 0 ≤ vm.sigQueueHead) (hhN : vm.sigQueueHead < N)
    (hem : vm.sigQueueTail = vm.sigQueueHead) (hov : vm.sigOverflow = 0)
    (hk : (sigs.length : Int) ≤ N - 1) (hfuel : sigs.length ≤ fuel)
    (hreg : vm.sigHandlers = registryObj entries) (hp : vm.sigPending = ofList P) :
    (∀ n, ∃ vmn, sig_handle_all N (sigs.take n) vm = .ok vmn ∧ vmn.sigOverflow = 0) ∧
    ∃ e, handleThenCheck N fuel sigs vm = some e ∧ e.fault = none ∧ e.drained = sigs ∧
      e.vm.sigQueueHead = e.vm.sigQueueTail ∧ e.vm.sigOverflow = 0 := by
  have hr : inRange N vm := by
    unfold inRange inBounds; rw [hem]; omega
  have hc0 : queueCount N vm = 0 := (queueCount_eq_zero_iff N vm hr).mpr hem.symm
  constructor
  · intro n
    have hlen : (sigs.take n).length ≤ sigs.length := by
      rw [List.length_take]; exact Nat.min_le_right _ _
    obtain ⟨vmn, hk1, _, ho, _⟩ :=
      sig_handle_all_enqueue N (sigs.take n) vm hr hov (by rw [hc0]; push_cast; omega)
    exact ⟨vmn, hk1, ho⟩
  · obtain ⟨vm1, hk1, hr1, _, _, hc1, hq1, hp1, hreg1, _, _⟩ :=
      sig_handle_all_enqueue N sigs vm hr hov (by rw [hc0]; push_cast; omega)
    obtain ⟨e, he, post, hf, hd, _⟩ := Scm_SigCheck_pending N fuel vm1 entries P hr1
      (by rw [hc1, hc0]; simpa using hfuel) (hreg1.trans hreg) (hp1.trans hp)
    refine ⟨e, ?_, hf, ?_, (post.head hf).trans post.tail.symm, post.overflow hf⟩
    · unfold handleThenCheck; rw [hk1]; exact he
    · rw [hd, hq1, queueContents_empty N vm hem.symm, List.nil_append]

/-- C17 (witness): 32 slots, the empty queue at slot 30 and the numbers
`INT, TERM, INT, 7`, which go into the slots 30, 31, 0 and 1. -/
theorem C17_enqueue_then_drain_from_any_slot_witness :
    (∀ n, ∃ vmn, sig_handle_all 32 ([SIGINT, SIGTERM, SIGINT, 7].take n)
        (emptyVM 30 ScmObj.nil) = .ok vmn ∧ vmn.sigOverflow = 0) ∧
    ∃ e, handleThenCheck 32 4 [SIGINT, SIGTERM, SIGINT, 7] (emptyVM 30 ScmObj.nil) = some e ∧
      e.fault = none ∧ e.drained = [SIGINT, SIGTERM, SIGINT, 7] ∧
      e.vm.sigQueueHead = e.vm.sigQueueTail ∧ e.vm.sigOverflow = 0 :=
  C17_enqueue_then_drain_from_any_slot 32 4 [SIGINT, SIGTERM, SIGINT, 7]
    (emptyVM 30 ScmObj.nil) exampleEntries [] (by decide) (by decide) rfl rfl
    (by decide) (by decide) rfl rfl

theorem sig_handle_inRange (N s : Int) (vm : ScmVM) (hr : inRange N vm) :
    ∃ vm1, sig_handle N s vm = .ok vm1 ∧ inRange N vm1 := by
  by_cases hov : vm.sigOverflow = 0
  · obtain ⟨vm1, hk, _, hh, ht, _⟩ := sig_handle_ok N s vm hov hr.2
    refine ⟨vm1, hk, ?_⟩
    obtain ⟨⟨h1, h2⟩, h3, h4⟩ := hr
    unfold inRange inBounds
    rw [hh, ht]
    split_ifs <;> omega
  · exact ⟨vm, sig_handle_of_overflow N s vm hov, hr⟩

/-- C18: the predicate `0 <= head < N` and `0 <= tail < N` is kept by `sig_handle`
and by `Scm_SigCheck`, however it ends; under it `sig_handle` returns, so its
write `sigQueue[tail]` is inside the buffer, and `Scm_SigCheck` does not end by
an access outside the buffer, so each read `sigQueue[head]` of its loop is
inside the buffer. -/
theorem C18_indices_stay_in_bounds (N : Int) (vm : ScmVM) (hr : inRange N vm) :
    (∀ s, ∃ vm1, sig_handle N s vm = .ok vm1 ∧ inRange N vm1) ∧
    (∀ fuel e, Scm_SigCheck N fuel vm = some e →
      e.fault ≠ some Fault.undefined ∧ inRange N e.vm) ∧
    (∀ fuel tp acc e, sigCheckLoop N fuel vm tp acc = some e →
      e.fault ≠ some Fault.undefined ∧ inRange N e.vm) := by
  refine ⟨fun s => sig_handle_inRange N s vm hr, ?_, ?_⟩
  · intro fuel e he
    have post := Scm_SigCheck_post N fuel vm e he
    exact ⟨post.defined hr, post.rangeKept hr⟩
  · intro fuel tp acc e he
    obtain ⟨d, _, post⟩ := sigCheckLoop_post N fuel vm tp acc e he
    exact ⟨post.defined hr, post.rangeKept hr⟩

/-- C18 (witness): 32 slots, head at slot 0 and tail at slot 31, where the tail
index goes round. -/
theorem C18_indices_stay_in_bounds_witness :
    (∀ s, ∃ vm1, sig_handle 32 s lastSlotVM = .ok vm1 ∧ inRange 32 vm1) ∧
    (∀ fuel e, Scm_SigCheck 32 fuel lastSlotVM = some e →
      e.fault ≠ some Fault.undefined ∧ inRange 32 e.vm) ∧
    (∀ fuel tp acc e, sigCheckLoop 32 fuel lastSlotVM tp acc = some e →
      e.fault ≠ some Fault.undefined ∧ inRange 32 e.vm) :=
  C18_indices_stay_in_bounds 32 lastSlotVM (by decide)

/-- With a well-formed registry the loop is still running after any number of
iterations smaller than the number of queued numbers. -/
theorem sigCheckLoop_running (N : Int) (entries : List (sigset_t × ScmObj)) (fuel : Nat) :
    ∀ (vm : ScmVM) (tp : TailPtr) (acc : List Int),
      inRange N vm → vm.sigHandlers = registryObj entries → fuel < queueCount N vm →
      sigCheckLoop N fuel vm tp acc = none := by
  induction fuel with
  | zero =>
    intro vm tp acc hr _ hlt
    have h : vm.sigQueueHead ≠ vm.sigQueueTail := by
      intro hem
      have := (queueCount_eq_zero_iff N vm hr).mpr hem
      omega
    exact sigCheckLoop_zero N vm tp acc h
  | succ fuel ih =>
    intro vm tp acc hr hreg hlt
    have h : vm.sigQueueHead ≠ vm.sigQueueTail := by
      intro hem
      have := (queueCount_eq_zero_iff N vm hr).mpr hem
      omega
    rw [sigCheckLoop_succ N fuel vm tp acc h hr.1]
    have hr2 := dequeue_inRange N vm hr
    have hc2 : fuel < queueCount N (dequeue N vm).2 := by
      have := dequeue_count N vm hr h
      omega
    have hH : (dequeue N vm).2.sigHandlers = registryObj entries := by
      rw [dequeue_snd]; exact hreg
    cases hsc : scanHandlers (dequeue N vm).1 (dequeue N vm).2.sigHandlers with
    | assertFailed =>
      rw [hH] at hsc
      exact absurd hsc (scanHandlers_registryObj_ne entries _)
    | unmatched => exact ih _ _ _ hr2 hH hc2
    | matched hd =>
      simp only
      rw [appendHandler_eq]
      apply ih
      · exact (inRange_congr N (dequeue N vm).2 _ rfl rfl).mpr hr2
      · exact hH
      · exact lt_of_lt_of_eq hc2 (queueCount_congr N (dequeue N vm).2 _ rfl rfl).symm

/-- C19: for every state with valid indices and every well-formed registry, the
`while` loop of `Scm_SigCheck` ends, without a fault, after exactly
`(tail - head) mod N` iterations: it is still running after fewer, it has ended
after that many, and it has read one number in each; that count is at most
`N - 1`. -/
theorem C19_loop_terminates_after_count_iterations (N : Int) (vm : ScmVM)
    (entries : List (sigset_t × ScmObj)) (tp : TailPtr)
    (hr : inRange N vm) (hreg : vm.sigHandlers = registryObj entries) :
    queueCount N vm = ((vm.sigQueueTail - vm.sigQueueHead) % N).toNat ∧
    (queueCount N vm : Int) ≤ N - 1 ∧
    (∀ fuel, fuel < queueCount N vm → sigCheckLoop N fuel vm tp [] = none) ∧
    (∀ fuel, queueCount N vm ≤ fuel →
      ∃ e, sigCheckLoop N fuel vm tp [] = some e ∧ e.fault = none ∧
        e.drained.length = queueCount N vm ∧ e.drained = queueContents N vm ∧
        e.vm.sigQueueHead = e.vm.sigQueueTail) := by
  refine ⟨rfl, ?_, fun fuel hlt => sigCheckLoop_running N entries fuel vm tp [] hr hreg hlt, ?_⟩
  · have := queueCount_lt N vm hr
    omega
  · intro fuel hc
    obtain ⟨e, he⟩ := sigCheckLoop_terminates N fuel vm tp [] hr hc
    obtain ⟨d, hd, post⟩ := sigCheckLoop_post N fuel vm tp [] e he
    simp only [List.nil_append] at hd
    have hf : e.fault = none := by
      cases hef : e.fault with
      | none => rfl
      | some f =>
        exfalso
        cases f with
        | error => exact post.noError hef
        | panic =>
          obtain ⟨s, _, hs⟩ := post.panic hef
          rw [hreg] at hs
          exact scanHandlers_registryObj_ne entries s hs
        | undefined => exact post.defined hr hef
    have hem : e.vm.sigQueueHead = e.vm.sigQueueTail := (post.head hf).trans post.tail.symm
    have hcont := post.contents hr
    rw [queueContents_empty N e.vm hem, List.append_nil] at hcont
    refine ⟨e, he, hf, ?_, by rw [hd, hcont], hem⟩
    rw [hd, hcont]
    unfold queueContents
    simp

/-- C19 (witness): 32 slots and the queue `INT, TERM, INT`: three iterations. -/
theorem C19_loop_terminates_after_count_iterations_witness :
    queueCount 32 (queuedVM [SIGINT, SIGTERM, SIGINT] ScmObj.nil 0) =
      (((queuedVM [SIGINT, SIGTERM, SIGINT] ScmObj.nil 0).sigQueueTail -
        (queuedVM [SIGINT, SIGTERM, SIGINT] ScmObj.nil 0).sigQueueHead) % 32).toNat ∧
    (queueCount 32 (queuedVM [SIGINT, SIGTERM, SIGINT] ScmObj.nil 0) : Int) ≤ 32 - 1 ∧
    (∀ fuel, fuel < queueCount 32 (queuedVM [SIGINT, SIGTERM, SIGINT] ScmObj.nil 0) →
      sigCheckLoop 32 fuel (queuedVM [SIGINT, SIGTERM, SIGINT] ScmObj.nil 0)
        TailPtr.null [] = none) ∧
    (∀ fuel, queueCount 32 (queuedVM [SIGINT, SIGTERM, SIGINT] ScmObj.nil 0) ≤ fuel →
      ∃ e, sigCheckLoop 32 fuel (queuedVM [SIGINT, SIGTERM, SIGINT] ScmObj.nil 0)
          TailPtr.null [] = some e ∧ e.fault = none ∧
        e.drained.length = queueCount 32 (queuedVM [SIGINT, SIGTERM, SIGINT] ScmObj.nil 0) ∧
        e.drained = queueContents 32 (queuedVM [SIGINT, SIGTERM, SIGINT] ScmObj.nil 0) ∧
        e.vm.sigQueueHead = e.vm.sigQueueTail) :=
  C19_loop_terminates_after_count_iterations 32
    (queuedVM [SIGINT, SIGTERM, SIGINT] ScmObj.nil 0) exampleEntries TailPtr.null
    (by decide) rfl

end Gauche
